import Mathlib

/-!
# kfifo: a power-of-two ring buffer with free-running 32-bit cursors

Shallow embedding of `kfifo.h` / `kfifo.c` and of the call patterns of `main.c`.

* `unsigned int` values are natural numbers; every C operation that can wrap is
  written with an explicit `% 4294967296` (`add32`, `sub32`).
* A memory region (`unsigned char *` together with the bytes it points to) is a
  `List byte`.  `memcpy` returns `none` when it would read or write outside a region,
  so the operations that copy are `Option`-valued.
* A function that updates `*fifo` returns the new struct next to its C return value.
-/

namespace Kfifo

/-! ## Machine arithmetic -/

/-- One `unsigned char`. -/
abbrev byte := Fin 256

/-- Addition of two `unsigned int`, wrapping at `2^32`. -/
def add32 (a b : Nat) : Nat := (a + b) % 4294967296

/-- Subtraction of two `unsigned int`, wrapping at `2^32`. -/
def sub32 (a b : Nat) : Nat :=
  (a % 4294967296 + 4294967296 - b % 4294967296) % 4294967296

/-- The macro `min(a, b)` of `kfifo.c`: `((a) < (b)) ? (a) : (b)`. -/
def umin (a b : Nat) : Nat := if a < b then a else b

/-- The region `dst` with the bytes at offsets `doff .. doff + n - 1` replaced by the
bytes of `src` at offsets `soff .. soff + n - 1`. -/
def splice (dst : List byte) (doff : Nat) (src : List byte) (soff : Nat) (n : Nat) :
    List byte :=
  dst.take doff ++ ((src.drop soff).take n ++ dst.drop (doff + n))

/-- The C library `memcpy(dst + doff, src + soff, n)` on two disjoint regions: the
result is the new content of `dst`, or `none` when the `n` bytes do not lie inside
both regions. -/
def memcpy (dst : List byte) (doff : Nat) (src : List byte) (soff : Nat) (n : Nat) :
    Option (List byte) :=
  if doff + n ≤ dst.length ∧ soff + n ≤ src.length then
    some (splice dst doff src soff n)
  else none

/-! ## The data model (`kfifo.h`) -/

/-- The `struct kfifo`: `buffer` is the region the pointer field refers to, `size` is
the value stored in the `size` field, `in_` and `out` are the two cursors (`in` is a
reserved word). -/
structure kfifo where
  buffer : List byte
  size : Nat
  in_ : Nat
  out : Nat
deriving DecidableEq

/-- The inline function `__kfifo_reset`: `fifo->in = fifo->out = 0`. -/
def __kfifo_reset (fifo : kfifo) : kfifo :=
  { fifo with in_ := 0, out := 0 }

/-- The inline function `kfifo_len`: `fifo->in - fifo->out`. -/
def kfifo_len (fifo : kfifo) : Nat := sub32 fifo.in_ fifo.out

/-- The inline function `kfifo_empty`: `fifo->in == fifo->out`, as an `unsigned int`. -/
def kfifo_empty (fifo : kfifo) : Nat := if fifo.in_ = fifo.out then 1 else 0

/-! ## The operations (`kfifo.c`) -/

/-- The static function `is_power_of_2`: `n > 1 && ((n & (n - 1)) == 0)`. -/
def is_power_of_2 (n : Nat) : Bool :=
  decide (n > 1) && ((n &&& (n - 1)) == 0)

/-- The function `kfifo_init`; a null `buffer` is `none`.  Returns the struct after the
call and the C return value. -/
def kfifo_init (fifo : kfifo) (buffer : Option (List byte)) (size : Nat) : kfifo × Bool :=
  match buffer with
  | none => (fifo, false)
  | some b =>
    if !is_power_of_2 size then (fifo, false)
    else ({ buffer := b, size := sub32 size 1, in_ := 0, out := 0 }, true)

/-- The static function `roundup_pow_of_two` on an `unsigned int`: decrement, smear the
highest set bit over all lower positions, increment. -/
def roundup_pow_of_two (v : Nat) : Nat :=
  let v := sub32 v 1
  let v := v ||| (v >>> 1)
  let v := v ||| (v >>> 2)
  let v := v ||| (v >>> 4)
  let v := v ||| (v >>> 8)
  let v := v ||| (v >>> 16)
  add32 v 1

/-- The function `kfifo_alloc`, with line 89 read as `size = size < 2 ? 2 : size;`.
`malloc n` is what `malloc(n)` hands out for the storage (`none` for a null pointer, else
a region of `n` bytes with arbitrary content) and `q` is what
`malloc(sizeof(struct kfifo))` hands out (`none` for a null pointer, else a struct with
arbitrary field values).  The result is `none` for a null return, else the struct the
returned pointer refers to. -/
def kfifo_alloc (malloc : Nat → Option (List byte)) (q : Option kfifo) (size : Nat) :
    Option kfifo :=
  let size := if size < 2 then 2 else size
  let size := if !is_power_of_2 size then roundup_pow_of_two size else size
  match malloc size with
  | none => none
  | some buffer =>
    match q with
    | none => none
    | some q => some (kfifo_init q (some buffer) size).1

/-- The function `kfifo_put`.  Returns the struct after the call and the number of
bytes stored. -/
def kfifo_put (fifo : kfifo) (buffer : List byte) (len : Nat) : Option (kfifo × Nat) :=
  let len := umin len (add32 (sub32 (add32 fifo.size 1) fifo.in_) fifo.out)
  let l := umin len (sub32 (add32 fifo.size 1) (fifo.in_ &&& fifo.size))
  match memcpy fifo.buffer (fifo.in_ &&& fifo.size) buffer 0 l with
  | none => none
  | some b1 =>
    match memcpy b1 0 buffer l (sub32 len l) with
    | none => none
    | some b2 => some ({ fifo with buffer := b2, in_ := add32 fifo.in_ len }, len)

/-- The function `kfifo_peek`.  Returns the struct after the call, the destination
region after the call and the number of bytes copied. -/
def kfifo_peek (fifo : kfifo) (buffer : List byte) (len : Nat) :
    Option (kfifo × List byte × Nat) :=
  let len := umin len (sub32 fifo.in_ fifo.out)
  let l := umin len (sub32 (add32 fifo.size 1) (fifo.out &&& fifo.size))
  match memcpy buffer 0 fifo.buffer (fifo.out &&& fifo.size) l with
  | none => none
  | some d1 =>
    match memcpy d1 l fifo.buffer 0 (sub32 len l) with
    | none => none
    | some d2 => some (fifo, d2, len)

/-- The function `kfifo_get`: `kfifo_peek`, then `fifo->out += len`. -/
def kfifo_get (fifo : kfifo) (buffer : List byte) (len : Nat) :
    Option (kfifo × List byte × Nat) :=
  match kfifo_peek fifo buffer len with
  | none => none
  | some (fifo1, d, len) => some ({ fifo1 with out := add32 fifo1.out len }, d, len)

/-- The function `kfifo_skip`. -/
def kfifo_skip (fifo : kfifo) (len : Nat) : kfifo × Nat :=
  let len := umin len (sub32 fifo.in_ fifo.out)
  ({ fifo with out := add32 fifo.out len }, len)

/-! ## Specification vocabulary -/

/-- What the two copies of `kfifo_put` leave in the storage `buf` when `n` bytes of
`src` are stored from offset `off`: the first copy runs up to the physical end, the
second continues at offset `0`. -/
def ringStore (buf : List byte) (off : Nat) (src : List byte) (n : Nat) : List byte :=
  splice (splice buf off src 0 (min n (buf.length - off))) 0
    src (min n (buf.length - off)) (n - min n (buf.length - off))

/-- What the two copies of `kfifo_peek` leave in the destination `dst` when `n` bytes
are loaded from offset `off` of the storage `buf`. -/
def ringLoad (dst : List byte) (buf : List byte) (off : Nat) (n : Nat) : List byte :=
  splice (splice dst 0 buf off (min n (buf.length - off))) (min n (buf.length - off))
    buf 0 (n - min n (buf.length - off))

/-- The bytes a fifo holds, oldest first: `storage[(out + i) & mask]` for
`i < (in - out) mod 2^32`. -/
def contents (f : kfifo) : List byte :=
  (List.range (kfifo_len f)).map fun i => f.buffer.getD (add32 f.out i &&& f.size) 0

/-- The cursor invariant: both cursors are `unsigned int` values, `size + 1` is a power
of two between `2` and `2^31`, the storage has `size + 1` bytes, and the fifo holds at
most `size + 1` bytes. -/
structure Valid (f : kfifo) : Prop where
  in_lt : f.in_ < 4294967296
  out_lt : f.out < 4294967296
  pow2 : ∃ k, 1 ≤ k ∧ k ≤ 31 ∧ f.size + 1 = 2 ^ k
  storage : f.buffer.length = f.size + 1
  held : kfifo_len f ≤ f.size + 1

/-! ## Call sequences -/

/-- One call of the public interface together with its arguments: the source region and
`len` of a `kfifo_put`, the destination region and `len` of a `kfifo_get` or
`kfifo_peek`, the `len` of a `kfifo_skip`. -/
inductive Call where
  | put (src : List byte) (len : Nat)
  | get (dst : List byte) (len : Nat)
  | peek (dst : List byte) (len : Nat)
  | skip (len : Nat)
deriving DecidableEq

/-- What a call hands back to its caller: the returned count and, for `kfifo_get` and
`kfifo_peek`, the destination region after the call. -/
structure Reply where
  count : Nat
  dest : Option (List byte)
deriving DecidableEq

/-- The caller passes regions that are as long as the `len` it announces. -/
def Call.fits : Call → Bool
  | Call.put src len => decide (len ≤ src.length)
  | Call.get dst len => decide (len ≤ dst.length)
  | Call.peek dst len => decide (len ≤ dst.length)
  | Call.skip _ => true

/-- Perform one call on a fifo. -/
def Call.exec (f : kfifo) : Call → Option (kfifo × Reply)
  | Call.put src len =>
    match kfifo_put f src len with
    | none => none
    | some (f1, n) => some (f1, { count := n, dest := none })
  | Call.get dst len =>
    match kfifo_get f dst len with
    | none => none
    | some (f1, d, n) => some (f1, { count := n, dest := some d })
  | Call.peek dst len =>
    match kfifo_peek f dst len with
    | none => none
    | some (f1, d, n) => some (f1, { count := n, dest := some d })
  | Call.skip len =>
    some ((kfifo_skip f len).1, { count := (kfifo_skip f len).2, dest := none })

/-- Perform a sequence of calls, first to last, collecting what each hands back. -/
def run (f : kfifo) : List Call → Option (kfifo × List Reply)
  | [] => some (f, [])
  | c :: cs =>
    match c.exec f with
    | none => none
    | some (f1, r) =>
      match run f1 cs with
      | none => none
      | some (f2, rs) => some (f2, r :: rs)

/-- The count a call contributes to the bytes written: the return value of a put. -/
def Call.added : Call → Reply → Nat
  | Call.put _ _, r => r.count
  | _, _ => 0

/-- The count a call contributes to the bytes consumed: the return value of a get or of
a skip. -/
def Call.taken : Call → Reply → Nat
  | Call.get _ _, r => r.count
  | Call.skip _, r => r.count
  | _, _ => 0

/-- Sum of the values returned by the puts of a run. -/
def written : List Call → List Reply → Nat
  | c :: cs, r :: rs => c.added r + written cs rs
  | _, _ => 0

/-- Sum of the values returned by the gets and skips of a run. -/
def consumed : List Call → List Reply → Nat
  | c :: cs, r :: rs => c.taken r + consumed cs rs
  | _, _ => 0

/-- The queue a fifo of capacity `cap` implements, on the list of held bytes: what one
call does to the list and what it hands back. -/
def Call.queue (cap : Nat) (xs : List byte) : Call → Option (List byte × Reply)
  | Call.put src len =>
    if min len (cap - xs.length) ≤ src.length then
      some (xs ++ src.take (min len (cap - xs.length)),
            { count := min len (cap - xs.length), dest := none })
    else none
  | Call.get dst len =>
    if min len xs.length ≤ dst.length then
      some (xs.drop (min len xs.length),
            { count := min len xs.length,
              dest := some (xs.take (min len xs.length) ++ dst.drop (min len xs.length)) })
    else none
  | Call.peek dst len =>
    if min len xs.length ≤ dst.length then
      some (xs,
            { count := min len xs.length,
              dest := some (xs.take (min len xs.length) ++ dst.drop (min len xs.length)) })
    else none
  | Call.skip len =>
    some (xs.drop (min len xs.length), { count := min len xs.length, dest := none })

/-- A sequence of calls on the queue of held bytes. -/
def runQueue (cap : Nat) (xs : List byte) : List Call → Option (List byte × List Reply)
  | [] => some (xs, [])
  | c :: cs =>
    match c.queue cap xs with
    | none => none
    | some (ys, r) =>
      match runQueue cap ys cs with
      | none => none
      | some (zs, rs) => some (zs, r :: rs)

/-! ## The demonstration program (`main.c`) -/

/-- The array `a` of `main`: the bytes `0 .. 99`. -/
def demo_a : List byte := (List.range 100).map fun i => Fin.ofNat i

/-- The array `b` of `main`: 200 bytes. -/
def demo_b : List byte := List.replicate 200 0

/-- A fifo of 128 bytes of storage, empty, with both cursors at `k`. -/
def demo_q (k : Nat) : kfifo :=
  { buffer := List.replicate 128 0, size := 127, in_ := k, out := k }

/-- A fifo of 8 bytes of storage with write cursor `i` and read cursor `o`. -/
def demo_small (i o : Nat) : kfifo :=
  { buffer := [0, 0, 0, 0, 0, 0, 0, 0], size := 7, in_ := i, out := o }

/-- A fifo of 128 bytes of storage with write cursor `i` and read cursor `o`. -/
def demo_at (i o : Nat) : kfifo :=
  { buffer := List.replicate 128 0, size := 127, in_ := i, out := o }

/-! ## Arithmetic of masks and wrapping cursors -/

theorem umin_eq_min (a b : Nat) : umin a b = min a b := by
  unfold umin; split <;> omega

theorem mask_eq_mod {size k : Nat} (h : size + 1 = 2 ^ k) (x : Nat) :
    x &&& size = x % (size + 1) := by
  have hs : size = 2 ^ k - 1 := by omega
  rw [h, hs]
  exact Nat.and_pow_two_sub_one_eq_mod x k

theorem cap_dvd {c k : Nat} (hk : k ≤ 31) (h : c = 2 ^ k) : c ∣ 4294967296 := by
  subst h
  have : (4294967296 : Nat) = 2 ^ 32 := by norm_num
  rw [this]
  exact Nat.pow_dvd_pow 2 (by omega)

theorem cap_le {c k : Nat} (hk : k ≤ 31) (h : c = 2 ^ k) : c ≤ 2147483648 := by
  subst h
  have : (2147483648 : Nat) = 2 ^ 31 := by norm_num
  rw [this]
  exact Nat.pow_le_pow_right (by norm_num) hk

theorem cap_ge {c k : Nat} (hk : 1 ≤ k) (h : c = 2 ^ k) : 2 ≤ c := by
  subst h
  calc 2 = 2 ^ 1 := by norm_num
    _ ≤ 2 ^ k := Nat.pow_le_pow_right (by norm_num) hk

theorem add32_mod_cap {c : Nat} (hc : c ∣ 4294967296) (x d : Nat) :
    add32 x d % c = (x % c + d) % c := by
  unfold add32
  rw [Nat.mod_mod_of_dvd _ hc]
  simp [Nat.add_mod]

theorem mod_two_cap {a c : Nat} (h : a < 2 * c) :
    a % c = if a < c then a else a - c := by
  split
  · exact Nat.mod_eq_of_lt (by assumption)
  · rw [Nat.mod_eq_sub_mod (by omega)]
    exact Nat.mod_eq_of_lt (by omega)

theorem memcpy_eq_some {dst src : List byte} {doff soff n : Nat}
    (hd : doff + n ≤ dst.length) (hs : soff + n ≤ src.length) :
    memcpy dst doff src soff n = some (splice dst doff src soff n) := by
  unfold memcpy
  rw [if_pos ⟨hd, hs⟩]

theorem memcpy_eq_none {dst src : List byte} {doff soff n : Nat}
    (h : ¬ (doff + n ≤ dst.length ∧ soff + n ≤ src.length)) :
    memcpy dst doff src soff n = none := by
  unfold memcpy
  rw [if_neg h]

theorem splice_length {dst src : List byte} {doff soff n : Nat}
    (hd : doff + n ≤ dst.length) (hs : soff + n ≤ src.length) :
    (splice dst doff src soff n).length = dst.length := by
  unfold splice
  simp only [List.length_append, List.length_take, List.length_drop]
  omega

theorem splice_getElem? {dst src : List byte} {doff soff n : Nat}
    (hd : doff + n ≤ dst.length) (hs : soff + n ≤ src.length) (p : Nat) :
    (splice dst doff src soff n)[p]?
      = if doff ≤ p ∧ p < doff + n then src[soff + (p - doff)]? else dst[p]? := by
  unfold splice
  by_cases h1 : p < doff
  · rw [List.getElem?_append_left (by simp; omega), List.getElem?_take_of_lt h1, if_neg (by omega)]
  · rw [List.getElem?_append_right (by simp; omega)]
    have hl : (dst.take doff).length = doff := by simp; omega
    rw [hl]
    by_cases h2 : p < doff + n
    · rw [List.getElem?_append_left (by simp; omega), List.getElem?_take_of_lt (by omega),
        List.getElem?_drop, if_pos (by omega)]
    · rw [List.getElem?_append_right (by simp; omega)]
      have hl2 : ((src.drop soff).take n).length = n := by simp; omega
      rw [hl2, List.getElem?_drop, if_neg (by omega)]
      congr 1; omega

theorem mod_cases {a c : Nat} (h : a < 2 * c) :
    (a < c ∧ a % c = a) ∨ (c ≤ a ∧ a % c = a - c) := by
  have := @mod_two_cap a c h
  split at this <;> omega

/-- Facts about a valid fifo collected in one place: the capacity bounds, the mask as a
remainder, and the cursor distance. -/
theorem Valid.cap_bounds {f : kfifo} (hv : Valid f) :
    2 ≤ f.size + 1 ∧ f.size + 1 ≤ 2147483648 ∧ (f.size + 1) ∣ 4294967296 := by
  obtain ⟨k, h1, h2, h3⟩ := hv.pow2
  exact ⟨cap_ge h1 h3, cap_le h2 h3, cap_dvd h2 h3⟩

theorem Valid.mask {f : kfifo} (hv : Valid f) (x : Nat) :
    x &&& f.size = x % (f.size + 1) := by
  obtain ⟨k, _, _, h3⟩ := hv.pow2
  exact mask_eq_mod h3 x

/-- The free space computed by `kfifo_put` in wrapping arithmetic is the exact
difference `capacity - length`. -/
theorem Valid.free_eq {f : kfifo} (hv : Valid f) :
    add32 (sub32 (add32 f.size 1) f.in_) f.out = f.size + 1 - kfifo_len f := by
  obtain ⟨h2, h31, _⟩ := hv.cap_bounds
  have hi := hv.in_lt
  have ho := hv.out_lt
  have hh := hv.held
  unfold kfifo_len at *
  unfold add32 sub32 at *
  omega

theorem Valid.in_eq {f : kfifo} (hv : Valid f) : f.in_ = add32 f.out (kfifo_len f) := by
  have hi := hv.in_lt
  have ho := hv.out_lt
  unfold kfifo_len add32 sub32
  omega

theorem Valid.seg_eq {f : kfifo} (hv : Valid f) (x : Nat) :
    sub32 (add32 f.size 1) (x &&& f.size) = f.size + 1 - x % (f.size + 1) := by
  obtain ⟨h2, h31, _⟩ := hv.cap_bounds
  rw [hv.mask]
  have hlt : x % (f.size + 1) < f.size + 1 := Nat.mod_lt _ (by omega)
  generalize x % (f.size + 1) = r at hlt
  unfold add32 sub32
  omega

/-! ## The two-segment copies -/

theorem ringStore_length {buf src : List byte} {off n : Nat}
    (hoff : off < buf.length) (hn : n ≤ buf.length) (hs : n ≤ src.length) :
    (ringStore buf off src n).length = buf.length := by
  unfold ringStore
  have h1d : off + min n (buf.length - off) ≤ buf.length := by omega
  have h1s : 0 + min n (buf.length - off) ≤ src.length := by omega
  have hl1 := @splice_length buf src off 0 (min n (buf.length - off)) h1d h1s
  rw [splice_length (by rw [hl1]; omega) (by omega), hl1]

/-- Pointwise description of the storage after the two copies of `kfifo_put`: offset
`p` holds `src[d]` when `p` lies `d < n` places cyclically after `off`, and is
untouched otherwise. -/
theorem ringStore_getElem? {buf src : List byte} {off n : Nat}
    (hoff : off < buf.length) (hn : n ≤ buf.length) (hs : n ≤ src.length)
    (p : Nat) (hp : p < buf.length) :
    (ringStore buf off src n)[p]?
      = if (p + buf.length - off) % buf.length < n
        then src[(p + buf.length - off) % buf.length]? else buf[p]? := by
  unfold ringStore
  have h1d : off + min n (buf.length - off) ≤ buf.length := by omega
  have h1s : 0 + min n (buf.length - off) ≤ src.length := by omega
  have hl1 := @splice_length buf src off 0 (min n (buf.length - off)) h1d h1s
  rw [splice_getElem? (by rw [hl1]; omega) (by omega), splice_getElem? h1d h1s]
  rcases @mod_cases (p + buf.length - off) buf.length (by omega) with ⟨ha, hm⟩ | ⟨ha, hm⟩
  · rw [hm]
    by_cases hc : p + buf.length - off < n
    · rw [if_pos hc, if_pos (by omega)]
      congr 1; omega
    · rw [if_neg hc, if_neg (by omega), if_neg (by omega)]
  · rw [hm]
    by_cases hc : p + buf.length - off - buf.length < n
    · rw [if_pos hc, if_neg (by omega), if_pos (by omega)]
      congr 1; omega
    · rw [if_neg hc, if_neg (by omega), if_neg (by omega)]

theorem ringLoad_length {dst buf : List byte} {off n : Nat}
    (hoff : off < buf.length) (hn : n ≤ buf.length) (hd : n ≤ dst.length) :
    (ringLoad dst buf off n).length = dst.length := by
  unfold ringLoad
  have h1d : 0 + min n (buf.length - off) ≤ dst.length := by omega
  have h1s : off + min n (buf.length - off) ≤ buf.length := by omega
  have hl1 := @splice_length dst buf 0 off (min n (buf.length - off)) h1d h1s
  rw [splice_length (by rw [hl1]; omega) (by omega), hl1]

/-- Pointwise description of the destination after the two copies of `kfifo_peek`:
index `i < n` holds the storage byte `i` places cyclically after `off`, every other
index is untouched. -/
theorem ringLoad_getElem? {dst buf : List byte} {off n : Nat}
    (hoff : off < buf.length) (hn : n ≤ buf.length) (hd : n ≤ dst.length) (i : Nat) :
    (ringLoad dst buf off n)[i]?
      = if i < n then buf[(off + i) % buf.length]? else dst[i]? := by
  unfold ringLoad
  have h1d : 0 + min n (buf.length - off) ≤ dst.length := by omega
  have h1s : off + min n (buf.length - off) ≤ buf.length := by omega
  have hl1 := @splice_length dst buf 0 off (min n (buf.length - off)) h1d h1s
  rw [splice_getElem? (by rw [hl1]; omega) (by omega), splice_getElem? h1d h1s]
  by_cases hc : i < n
  · rw [if_pos hc]
    rcases @mod_cases (off + i) buf.length (by omega) with ⟨ha, hm⟩ | ⟨ha, hm⟩
    · rw [hm, if_neg (by omega), if_pos (by omega)]
      rfl
    · rw [hm, if_pos (by omega)]
      congr 1; omega
  · rw [if_neg hc, if_neg (by omega), if_neg (by omega)]

/-! ## Closed forms of the operations on a valid fifo -/

theorem sub32_of_le {a b : Nat} (hb : b ≤ a) (ha : a < 4294967296) : sub32 a b = a - b := by
  unfold sub32; omega

/-- Closed form of `kfifo_put` on a valid fifo: it stores `min len free` bytes when the
source region has that many, and is undefined otherwise. -/
theorem kfifo_put_eq {f : kfifo} (hv : Valid f) (src : List byte) (len : Nat) :
    kfifo_put f src len =
      if min len (f.size + 1 - kfifo_len f) ≤ src.length then
        some ({ f with
                buffer := ringStore f.buffer (f.in_ % (f.size + 1)) src
                  (min len (f.size + 1 - kfifo_len f)),
                in_ := add32 f.in_ (min len (f.size + 1 - kfifo_len f)) },
              min len (f.size + 1 - kfifo_len f))
      else none := by
  obtain ⟨h2, h31, _⟩ := hv.cap_bounds
  have hst := hv.storage
  have hoff : f.in_ % (f.size + 1) < f.size + 1 := Nat.mod_lt _ (by omega)
  have hn : min len (f.size + 1 - kfifo_len f) ≤ f.size + 1 := by omega
  unfold kfifo_put
  simp only [umin_eq_min, hv.free_eq, hv.seg_eq]
  simp only [hv.mask]
  generalize min len (f.size + 1 - kfifo_len f) = n at *
  generalize f.in_ % (f.size + 1) = off at *
  rw [sub32_of_le (Nat.min_le_left _ _) (by omega)]
  by_cases hs : n ≤ src.length
  · rw [if_pos hs, memcpy_eq_some (by omega) (by omega)]
    simp only []
    rw [memcpy_eq_some (by rw [splice_length (by omega) (by omega)]; omega) (by omega)]
    simp only [ringStore, hst]
  · rw [if_neg hs]
    by_cases hl : min n (f.size + 1 - off) ≤ src.length
    · rw [memcpy_eq_some (by omega) (by omega)]
      simp only []
      rw [memcpy_eq_none (by omega)]
    · rw [memcpy_eq_none (by omega)]

/-- Closed form of `kfifo_peek` on a valid fifo: it loads `min len length` bytes when
the destination region has room for them, and is undefined otherwise. -/
theorem kfifo_peek_eq {f : kfifo} (hv : Valid f) (dst : List byte) (len : Nat) :
    kfifo_peek f dst len =
      if min len (kfifo_len f) ≤ dst.length then
        some (f, ringLoad dst f.buffer (f.out % (f.size + 1)) (min len (kfifo_len f)),
              min len (kfifo_len f))
      else none := by
  obtain ⟨h2, h31, _⟩ := hv.cap_bounds
  have hst := hv.storage
  have hh := hv.held
  have hoff : f.out % (f.size + 1) < f.size + 1 := Nat.mod_lt _ (by omega)
  have hn : min len (kfifo_len f) ≤ f.size + 1 := by omega
  unfold kfifo_peek
  simp only [umin_eq_min, hv.seg_eq]
  simp only [hv.mask]
  rw [show sub32 f.in_ f.out = kfifo_len f from rfl]
  generalize min len (kfifo_len f) = n at *
  generalize f.out % (f.size + 1) = off at *
  rw [sub32_of_le (Nat.min_le_left _ _) (by omega)]
  by_cases hs : n ≤ dst.length
  · rw [if_pos hs, memcpy_eq_some (by omega) (by omega)]
    simp only []
    rw [memcpy_eq_some (by rw [splice_length (by omega) (by omega)]; omega) (by omega)]
    simp only [ringLoad, hst]
  · rw [if_neg hs]
    by_cases hl : min n (f.size + 1 - off) ≤ dst.length
    · rw [memcpy_eq_some (by omega) (by omega)]
      simp only []
      rw [memcpy_eq_none (by rw [splice_length (by omega) (by omega)]; omega)]
    · rw [memcpy_eq_none (by omega)]

theorem kfifo_get_eq {f : kfifo} (hv : Valid f) (dst : List byte) (len : Nat) :
    kfifo_get f dst len =
      if min len (kfifo_len f) ≤ dst.length then
        some ({ f with out := add32 f.out (min len (kfifo_len f)) },
              ringLoad dst f.buffer (f.out % (f.size + 1)) (min len (kfifo_len f)),
              min len (kfifo_len f))
      else none := by
  unfold kfifo_get
  rw [kfifo_peek_eq hv]
  by_cases h : min len (kfifo_len f) ≤ dst.length
  · rw [if_pos h, if_pos h]
  · rw [if_neg h, if_neg h]

theorem kfifo_skip_eq (f : kfifo) (len : Nat) :
    kfifo_skip f len =
      ({ f with out := add32 f.out (min len (kfifo_len f)) }, min len (kfifo_len f)) := by
  unfold kfifo_skip
  simp only [umin_eq_min]
  rfl

/-! ## The held bytes -/

theorem contents_length (f : kfifo) : (contents f).length = kfifo_len f := by
  simp [contents]

/-- Element `i` of the contents of a valid fifo is the storage byte `i` places
cyclically after the offset of the read cursor. -/
theorem contents_getElem? {f : kfifo} (hv : Valid f) (i : Nat) :
    (contents f)[i]? =
      if i < kfifo_len f then f.buffer[(f.out % (f.size + 1) + i) % (f.size + 1)]? else none := by
  obtain ⟨h2, h31, hd⟩ := hv.cap_bounds
  unfold contents
  by_cases hi : i < kfifo_len f
  · rw [if_pos hi, List.getElem?_map, List.getElem?_range hi]
    simp only [Option.map_some', hv.mask, add32_mod_cap hd]
    have hlt : (f.out % (f.size + 1) + i) % (f.size + 1) < f.buffer.length := by
      rw [hv.storage]; exact Nat.mod_lt _ (by omega)
    rw [List.getD_eq_getElem _ _ hlt, List.getElem?_eq_getElem hlt]
  · rw [if_neg hi]
    apply List.getElem?_eq_none
    simp; omega

/-- A logical position below the current length lies outside the cyclic window of `n`
offsets that starts at the write offset. -/
theorem ring_old {c o L n i : Nat} (ho : o < c) (hL : L + n ≤ c) (hi : i < L) :
    n ≤ ((o + i) % c + c - (o + L) % c) % c := by
  rcases @mod_cases (o + i) c (by omega) with ⟨_, h1⟩ | ⟨_, h1⟩ <;>
  rcases @mod_cases (o + L) c (by omega) with ⟨_, h2⟩ | ⟨_, h2⟩ <;>
  rw [h1, h2] <;>
  [rcases @mod_cases (o + i + c - (o + L)) c (by omega) with ⟨_, h3⟩ | ⟨_, h3⟩;
   rcases @mod_cases (o + i + c - (o + L - c)) c (by omega) with ⟨_, h3⟩ | ⟨_, h3⟩;
   rcases @mod_cases (o + i - c + c - (o + L)) c (by omega) with ⟨_, h3⟩ | ⟨_, h3⟩;
   rcases @mod_cases (o + i - c + c - (o + L - c)) c (by omega) with ⟨_, h3⟩ | ⟨_, h3⟩] <;>
  omega

/-- A logical position `L + j` with `j < n` lies `j` places into the cyclic window that
starts at the write offset. -/
theorem ring_new {c o L n i : Nat} (ho : o < c) (hL : L + n ≤ c) (h1 : L ≤ i)
    (h2 : i < L + n) :
    ((o + i) % c + c - (o + L) % c) % c = i - L := by
  rcases @mod_cases (o + i) c (by omega) with ⟨_, h1⟩ | ⟨_, h1⟩ <;>
  rcases @mod_cases (o + L) c (by omega) with ⟨_, h2⟩ | ⟨_, h2⟩ <;>
  rw [h1, h2] <;>
  [rcases @mod_cases (o + i + c - (o + L)) c (by omega) with ⟨_, h3⟩ | ⟨_, h3⟩;
   rcases @mod_cases (o + i + c - (o + L - c)) c (by omega) with ⟨_, h3⟩ | ⟨_, h3⟩;
   rcases @mod_cases (o + i - c + c - (o + L)) c (by omega) with ⟨_, h3⟩ | ⟨_, h3⟩;
   rcases @mod_cases (o + i - c + c - (o + L - c)) c (by omega) with ⟨_, h3⟩ | ⟨_, h3⟩] <;>
  omega

/-- The fifo left by a `kfifo_put` that stores `n` bytes. -/
theorem put_len {f : kfifo} (hv : Valid f) {n : Nat} (hn : n ≤ f.size + 1 - kfifo_len f) :
    sub32 (add32 f.in_ n) f.out = kfifo_len f + n := by
  obtain ⟨h2, h31, _⟩ := hv.cap_bounds
  have hi := hv.in_lt
  have ho := hv.out_lt
  have hh := hv.held
  unfold kfifo_len at *
  unfold add32 sub32 at *
  omega

theorem put_valid {f : kfifo} (hv : Valid f) {src : List byte} {n : Nat}
    (hn : n ≤ f.size + 1 - kfifo_len f) (hs : n ≤ src.length) :
    Valid { f with buffer := ringStore f.buffer (f.in_ % (f.size + 1)) src n,
                   in_ := add32 f.in_ n } := by
  obtain ⟨h2, h31, _⟩ := hv.cap_bounds
  have hst := hv.storage
  have hh := hv.held
  refine ⟨?_, hv.out_lt, hv.pow2, ?_, ?_⟩
  · show add32 f.in_ n < 4294967296
    unfold add32; omega
  · show (ringStore f.buffer (f.in_ % (f.size + 1)) src n).length = f.size + 1
    rw [ringStore_length (by rw [hst]; exact Nat.mod_lt _ (by omega)) (by omega) hs, hst]
  · show sub32 (add32 f.in_ n) f.out ≤ f.size + 1
    rw [put_len hv hn]; omega

/-- After `kfifo_put` has stored `n` bytes, the fifo holds what it held before followed
by the first `n` bytes of the source. -/
theorem put_contents {f : kfifo} (hv : Valid f) {src : List byte} {n : Nat}
    (hn : n ≤ f.size + 1 - kfifo_len f) (hs : n ≤ src.length) :
    contents { f with buffer := ringStore f.buffer (f.in_ % (f.size + 1)) src n,
                      in_ := add32 f.in_ n }
      = contents f ++ src.take n := by
  obtain ⟨h2, h31, hd⟩ := hv.cap_bounds
  have hst := hv.storage
  have hh := hv.held
  have ho : f.out % (f.size + 1) < f.size + 1 := Nat.mod_lt _ (by omega)
  have hin : f.in_ % (f.size + 1) = (f.out % (f.size + 1) + kfifo_len f) % (f.size + 1) := by
    conv_lhs => rw [hv.in_eq]
    exact add32_mod_cap hd _ _
  have hin_lt : f.in_ % (f.size + 1) < f.buffer.length := by
    rw [hst]; exact Nat.mod_lt _ (by omega)
  apply List.ext_getElem?
  intro i
  rw [contents_getElem? (put_valid hv hn hs)]
  show (if i < sub32 (add32 f.in_ n) f.out then
      (ringStore f.buffer (f.in_ % (f.size + 1)) src n)[(f.out % (f.size + 1) + i) % (f.size + 1)]?
      else none) = _
  rw [put_len hv hn]
  by_cases hi : i < kfifo_len f
  · rw [if_pos (by omega), List.getElem?_append_left (by rw [contents_length]; exact hi),
      contents_getElem? hv, if_pos hi,
      ringStore_getElem? hin_lt (by omega) hs _ (by rw [hst]; exact Nat.mod_lt _ (by omega)),
      hst, hin, if_neg (by have := @ring_old (f.size + 1) _ (kfifo_len f) n i ho (by omega) hi; omega)]
  · rw [List.getElem?_append_right (by rw [contents_length]; omega), contents_length]
    by_cases hi2 : i < kfifo_len f + n
    · rw [if_pos hi2,
        ringStore_getElem? hin_lt (by omega) hs _ (by rw [hst]; exact Nat.mod_lt _ (by omega)),
        hst, hin, @ring_new (f.size + 1) _ (kfifo_len f) n i ho (by omega) (by omega) hi2,
        if_pos (by omega), List.getElem?_take_of_lt (by omega)]
    · rw [if_neg hi2]
      symm
      apply List.getElem?_eq_none
      simp; omega

/-- What `kfifo_peek` leaves in the destination: the `n` oldest held bytes, then the
destination's own bytes from index `n` on. -/
theorem peek_dest {f : kfifo} (hv : Valid f) {dst : List byte} {n : Nat}
    (hn : n ≤ kfifo_len f) (hd : n ≤ dst.length) :
    ringLoad dst f.buffer (f.out % (f.size + 1)) n = (contents f).take n ++ dst.drop n := by
  obtain ⟨h2, h31, _⟩ := hv.cap_bounds
  have hst := hv.storage
  have hh := hv.held
  have ho : f.out % (f.size + 1) < f.buffer.length := by
    rw [hst]; exact Nat.mod_lt _ (by omega)
  have hlen : ((contents f).take n).length = n := by
    rw [List.length_take, contents_length]; omega
  apply List.ext_getElem?
  intro i
  rw [ringLoad_getElem? ho (by omega) hd, hst]
  by_cases hi : i < n
  · rw [if_pos hi, List.getElem?_append_left (by omega), List.getElem?_take_of_lt hi,
      contents_getElem? hv, if_pos (by omega)]
  · rw [if_neg hi, List.getElem?_append_right (by omega), hlen, List.getElem?_drop]
    congr 1; omega

theorem skip_len {f : kfifo} (hv : Valid f) {n : Nat} (hn : n ≤ kfifo_len f) :
    sub32 f.in_ (add32 f.out n) = kfifo_len f - n := by
  obtain ⟨h2, h31, _⟩ := hv.cap_bounds
  have hi := hv.in_lt
  have ho := hv.out_lt
  have hh := hv.held
  unfold kfifo_len at *
  unfold add32 sub32 at *
  omega

theorem skip_valid {f : kfifo} (hv : Valid f) {n : Nat} (hn : n ≤ kfifo_len f) :
    Valid { f with out := add32 f.out n } := by
  have hh := hv.held
  refine ⟨hv.in_lt, ?_, hv.pow2, hv.storage, ?_⟩
  · show add32 f.out n < 4294967296
    unfold add32; omega
  · show sub32 f.in_ (add32 f.out n) ≤ f.size + 1
    rw [skip_len hv hn]; omega

/-- Advancing the read cursor by `n` removes the `n` oldest bytes and keeps the rest in
order. -/
theorem skip_contents {f : kfifo} (hv : Valid f) {n : Nat} (hn : n ≤ kfifo_len f) :
    contents { f with out := add32 f.out n } = (contents f).drop n := by
  obtain ⟨h2, h31, hd⟩ := hv.cap_bounds
  have hh := hv.held
  apply List.ext_getElem?
  intro i
  rw [contents_getElem? (skip_valid hv hn), List.getElem?_drop, contents_getElem? hv]
  show (if i < sub32 f.in_ (add32 f.out n) then
      f.buffer[(add32 f.out n % (f.size + 1) + i) % (f.size + 1)]? else none) = _
  rw [skip_len hv hn, add32_mod_cap hd]
  by_cases hi : i < kfifo_len f - n
  · rw [if_pos hi, if_pos (by omega)]
    congr 1
    rw [Nat.mod_add_mod, Nat.add_assoc]
  · rw [if_neg hi, if_neg (by omega)]

/-! ## The power-of-two test -/

/-- A positive number that shares no bit with its predecessor is a power of two. -/
theorem pow2_of_and_pred : ∀ n : Nat, 1 ≤ n → n &&& (n - 1) = 0 → ∃ k, n = 2 ^ k := by
  intro n
  induction n using Nat.strong_induction_on with
  | _ n ih =>
    intro h1 h0
    by_cases hn : n = 1
    · exact ⟨0, by rw [hn]; rfl⟩
    · have hdiv : n / 2 &&& (n - 1) / 2 = 0 := by
        rw [← Nat.and_div_two, h0]
      by_cases hodd : n % 2 = 1
      · have e : (n - 1) / 2 = n / 2 := by omega
        rw [e, Nat.and_self] at hdiv
        omega
      · have e : (n - 1) / 2 = n / 2 - 1 := by omega
        rw [e] at hdiv
        obtain ⟨k, hk⟩ := ih (n / 2) (by omega) (by omega) hdiv
        exact ⟨k + 1, by rw [Nat.pow_succ, ← hk]; omega⟩

/-- What the test `is_power_of_2` establishes for an `unsigned int` argument. -/
theorem is_power_of_2_spec {n : Nat} (hn : n < 4294967296) (h : is_power_of_2 n = true) :
    ∃ k, 1 ≤ k ∧ k ≤ 31 ∧ n = 2 ^ k := by
  unfold is_power_of_2 at h
  simp only [Bool.and_eq_true, decide_eq_true_eq, beq_iff_eq] at h
  obtain ⟨hgt, hand⟩ := h
  obtain ⟨k, hk⟩ := pow2_of_and_pred n (by omega) hand
  refine ⟨k, ?_, ?_, hk⟩
  · rcases Nat.eq_zero_or_pos k with h0 | h0
    · rw [h0] at hk; simp at hk; omega
    · exact h0
  · by_contra hc
    have : 2 ^ 32 ≤ 2 ^ k := Nat.pow_le_pow_right (by norm_num) (by omega)
    have e : (2 : Nat) ^ 32 = 4294967296 := by norm_num
    omega

/-! ## The claims -/

theorem kfifo_len_of_empty {f : kfifo} (hv : Valid f) (he : f.in_ = f.out) :
    kfifo_len f = 0 := by
  have := hv.in_lt
  have := hv.out_lt
  unfold kfifo_len sub32
  omega

theorem contents_of_empty {f : kfifo} (hv : Valid f) (he : f.in_ = f.out) :
    contents f = [] := by
  unfold contents
  rw [kfifo_len_of_empty hv he]
  rfl

theorem demo_a_length : demo_a.length = 100 := by
  simp [demo_a]

theorem demo_b_length : demo_b.length = 200 := by
  rw [demo_b, List.length_replicate]

theorem demo_q_valid (k : Nat) (hk : k < 4294967296) : Valid (demo_q k) := by
  refine ⟨hk, hk, ⟨7, by decide, by decide, rfl⟩, rfl, ?_⟩
  show sub32 k k ≤ 127 + 1
  unfold sub32
  omega

theorem demo_at_valid (i o : Nat) (hi : i < 4294967296) (ho : o < 4294967296)
    (h : sub32 i o ≤ 128) : Valid (demo_at i o) :=
  ⟨hi, ho, ⟨7, by decide, by decide, rfl⟩, rfl, h⟩

/-- C1. Round trip on an empty fifo: on a valid fifo with `in = out`, at any cursor
value, putting a byte sequence `S` no longer than the capacity returns `len(S)`, and a
following `kfifo_get` with `len ≥ len(S)` into a destination of at least `len(S)` bytes
returns `len(S)` and leaves `S` in the first `len(S)` destination bytes. -/
theorem roundtrip_on_empty (f : kfifo) (S dst : List byte) (len : Nat)
    (hv : Valid f) (he : f.in_ = f.out) (hS : S.length ≤ f.size + 1)
    (hL : S.length ≤ dst.length) (hlen : S.length ≤ len) :
    ∃ f1 f2 d, kfifo_put f S S.length = some (f1, S.length)
      ∧ kfifo_get f1 dst len = some (f2, d, S.length)
      ∧ d.take S.length = S := by
  have h0 := kfifo_len_of_empty hv he
  have hn : min S.length (f.size + 1 - kfifo_len f) = S.length := by omega
  have hput := kfifo_put_eq hv S S.length
  rw [hn, if_pos (le_refl _)] at hput
  have hv1 := put_valid hv (show S.length ≤ f.size + 1 - kfifo_len f by omega) (le_refl _)
  have hc1 := put_contents hv (show S.length ≤ f.size + 1 - kfifo_len f by omega) (le_refl _)
  rw [contents_of_empty hv he, List.nil_append, List.take_length] at hc1
  have hl1 := contents_length
    { f with buffer := ringStore f.buffer (f.in_ % (f.size + 1)) S S.length,
             in_ := add32 f.in_ S.length }
  rw [hc1] at hl1
  have hm : min len (kfifo_len { f with
      buffer := ringStore f.buffer (f.in_ % (f.size + 1)) S S.length,
      in_ := add32 f.in_ S.length }) = S.length := by omega
  have hget := kfifo_get_eq hv1 dst len
  rw [hm, if_pos hL] at hget
  refine ⟨_, _, _, hput, hget, ?_⟩
  rw [peek_dest hv1 (by omega) hL, hc1, List.take_length, List.take_left']
  rfl

/-- C1, at the second put/get pair of the demonstration program: 128 bytes of storage,
both cursors at 100, the bytes `0 .. 99` put and read back into 200 bytes. -/
theorem roundtrip_on_empty_witness :
    Valid (demo_q 100) ∧ (demo_q 100).in_ = (demo_q 100).out
      ∧ demo_a.length ≤ (demo_q 100).size + 1 ∧ demo_a.length ≤ demo_b.length
      ∧ demo_a.length ≤ 200
      ∧ ∃ f1 f2 d, kfifo_put (demo_q 100) demo_a demo_a.length = some (f1, demo_a.length)
          ∧ kfifo_get f1 demo_b 200 = some (f2, d, demo_a.length)
          ∧ d.take demo_a.length = demo_a :=
  ⟨demo_q_valid 100 (by decide), rfl, by simp [demo_a_length, demo_q],
    by simp [demo_a_length, demo_b_length], by simp [demo_a_length],
    roundtrip_on_empty (demo_q 100) demo_a demo_b 200 (demo_q_valid 100 (by decide)) rfl
      (by simp [demo_a_length, demo_q]) (by simp [demo_a_length, demo_b_length])
      (by simp [demo_a_length])⟩

/-- C2. `kfifo_put` appends a truncated prefix in FIFO order: on a valid fifo, with a
source of at least `len` bytes, the call returns `n = min(len, capacity - length)` and
the bytes held afterwards are the bytes held before followed by the first `n` bytes of
the source, so nothing beyond `n` is stored and no held byte changes. -/
theorem put_appends_prefix (f : kfifo) (src : List byte) (len : Nat)
    (hv : Valid f) (hlen : len ≤ src.length) :
    ∃ f1 n, kfifo_put f src len = some (f1, n)
      ∧ n = min len (f.size + 1 - kfifo_len f)
      ∧ contents f1 = contents f ++ src.take n := by
  have hs : min len (f.size + 1 - kfifo_len f) ≤ src.length := by omega
  refine ⟨_, _, ?_, rfl, put_contents hv (Nat.min_le_right _ _) hs⟩
  rw [kfifo_put_eq hv, if_pos hs]

/-- C2, at the overfull write: on the empty 128-byte fifo a put of the 200 bytes
`demo_a ++ demo_a` returns 128 and the fifo then holds the first 128 of them. -/
theorem put_appends_prefix_witness :
    Valid (demo_q 0) ∧ 200 ≤ (demo_a ++ demo_a).length
      ∧ ∃ f1, kfifo_put (demo_q 0) (demo_a ++ demo_a) 200 = some (f1, 128)
          ∧ contents f1 = (demo_a ++ demo_a).take 128 :=
  ⟨demo_q_valid 0 (by decide), by simp [demo_a_length],
    match put_appends_prefix (demo_q 0) (demo_a ++ demo_a) 200 (demo_q_valid 0 (by decide))
      (by simp [demo_a_length]) with
    | ⟨f1, n, h1, h2, h3⟩ =>
      have hn : n = 128 := h2
      ⟨f1, by rw [← hn]; exact h1,
        by rw [h3, contents_of_empty (demo_q_valid 0 (by decide)) rfl, hn]; rfl⟩⟩

/-- C3. Return value and cursor update of `kfifo_put`: on a valid fifo the free space
that the code computes left to right in wrapping arithmetic is the exact natural number
`capacity - length`; the call returns `min(len, capacity - length)`, leaves
`in = (in + returned) mod 2^32`, and returns `0` when the fifo is full. -/
theorem put_return_and_cursor (f : kfifo) (src : List byte) (len : Nat)
    (hv : Valid f) (hs : min len (f.size + 1 - kfifo_len f) ≤ src.length) :
    add32 (sub32 (add32 f.size 1) f.in_) f.out = f.size + 1 - kfifo_len f
      ∧ ∃ f1, kfifo_put f src len = some (f1, min len (f.size + 1 - kfifo_len f))
          ∧ f1.in_ = (f.in_ + min len (f.size + 1 - kfifo_len f)) % 4294967296
          ∧ (kfifo_len f = f.size + 1 → kfifo_put f src len = some (f1, 0)) := by
  refine ⟨hv.free_eq,
    { f with
      buffer := ringStore f.buffer (f.in_ % (f.size + 1)) src
        (min len (f.size + 1 - kfifo_len f)),
      in_ := add32 f.in_ (min len (f.size + 1 - kfifo_len f)) }, ?_, rfl, ?_⟩
  · rw [kfifo_put_eq hv, if_pos hs]
  · intro hfull
    have h0 : min len (f.size + 1 - kfifo_len f) = 0 := by omega
    rw [kfifo_put_eq hv, if_pos hs, h0]

/-- C3, with `in` numerically below `out`: 128 bytes of storage, `out = 2^32 - 10`,
`in = 90` (100 bytes held, 28 free), and a put of the 100 bytes of `demo_a`. -/
theorem put_return_and_cursor_witness :
    Valid (demo_at 90 4294967286)
      ∧ min 100 ((demo_at 90 4294967286).size + 1 - kfifo_len (demo_at 90 4294967286))
          ≤ demo_a.length
      ∧ (add32 (sub32 (add32 127 1) 90) 4294967286 = 28
        ∧ ∃ f1, kfifo_put (demo_at 90 4294967286) demo_a 100 = some (f1, 28)
            ∧ f1.in_ = 118
            ∧ (kfifo_len (demo_at 90 4294967286) = 128 →
                kfifo_put (demo_at 90 4294967286) demo_a 100 = some (f1, 0))) :=
  ⟨demo_at_valid 90 4294967286 (by decide) (by decide) (by decide),
    by rw [demo_a_length]; decide,
    put_return_and_cursor (demo_at 90 4294967286) demo_a 100
      (demo_at_valid 90 4294967286 (by decide) (by decide) (by decide))
      (by rw [demo_a_length]; decide)⟩

/-- The destination after a read, index by index, in terms of the storage. -/
theorem peek_dest_getElem? {f : kfifo} (hv : Valid f) {dst : List byte} {n : Nat}
    (hn : n ≤ kfifo_len f) (hd : n ≤ dst.length) (i : Nat) :
    (ringLoad dst f.buffer (f.out % (f.size + 1)) n)[i]?
      = if i < n then f.buffer[add32 f.out i &&& f.size]? else dst[i]? := by
  obtain ⟨h2, h31, hdv⟩ := hv.cap_bounds
  have hst := hv.storage
  have hh := hv.held
  rw [ringLoad_getElem? (by rw [hst]; exact Nat.mod_lt _ (by omega)) (by omega) hd, hst,
    hv.mask, add32_mod_cap hdv]

/-- C4. Truncating read: on a valid fifo holding `k` bytes, with a destination of at
least `len` bytes, `kfifo_peek` and `kfifo_get` both return `n = min(len, k)`; the
destination keeps its length, its byte `i` is `storage[(out + i) & mask]` for every
`i < n`, and every byte at an index `≥ n` is unchanged. -/
theorem read_returns_oldest (f : kfifo) (dst : List byte) (len : Nat)
    (hv : Valid f) (hd : len ≤ dst.length) :
    ∃ d f2, kfifo_peek f dst len = some (f, d, min len (kfifo_len f))
      ∧ kfifo_get f dst len = some (f2, d, min len (kfifo_len f))
      ∧ d.length = dst.length
      ∧ (∀ i, i < min len (kfifo_len f) → d[i]? = f.buffer[add32 f.out i &&& f.size]?)
      ∧ (∀ i, min len (kfifo_len f) ≤ i → d[i]? = dst[i]?) := by
  obtain ⟨h2, h31, hdv⟩ := hv.cap_bounds
  have hst := hv.storage
  have hh := hv.held
  have hn : min len (kfifo_len f) ≤ dst.length := by omega
  refine ⟨ringLoad dst f.buffer (f.out % (f.size + 1)) (min len (kfifo_len f)),
    { f with out := add32 f.out (min len (kfifo_len f)) }, ?_, ?_, ?_, ?_, ?_⟩
  · rw [kfifo_peek_eq hv, if_pos hn]
  · rw [kfifo_get_eq hv, if_pos hn]
  · exact ringLoad_length (by rw [hst]; exact Nat.mod_lt _ (by omega)) (by omega) hn
  · intro i hi
    rw [peek_dest_getElem? hv (Nat.min_le_right _ _) hn, if_pos hi]
  · intro i hi
    rw [peek_dest_getElem? hv (Nat.min_le_right _ _) hn, if_neg (by omega)]

/-- C4, at the underfull read: a 128-byte fifo holding 50 bytes, read with `len = 200`
into the 200-byte `demo_b`. -/
theorem read_returns_oldest_witness :
    Valid (demo_at 50 0) ∧ 200 ≤ demo_b.length
      ∧ ∃ d f2, kfifo_peek (demo_at 50 0) demo_b 200 = some (demo_at 50 0, d, 50)
          ∧ kfifo_get (demo_at 50 0) demo_b 200 = some (f2, d, 50)
          ∧ d.length = demo_b.length
          ∧ (∀ i, i < 50 →
              d[i]? = (demo_at 50 0).buffer[add32 (demo_at 50 0).out i
                &&& (demo_at 50 0).size]?)
          ∧ (∀ i, 50 ≤ i → d[i]? = demo_b[i]?) :=
  ⟨demo_at_valid 50 0 (by decide) (by decide) (by decide), by rw [demo_b_length],
    read_returns_oldest (demo_at 50 0) demo_b 200
      (demo_at_valid 50 0 (by decide) (by decide) (by decide)) (by rw [demo_b_length])⟩

/-- C5. `kfifo_get` is `kfifo_peek` followed by advancing the read cursor: for every
fifo state, destination and `len`, `kfifo_peek` hands back the fifo it was given, and
`kfifo_get` is undefined exactly when `kfifo_peek` is and otherwise returns the same
count and destination bytes with only `out` replaced by `(out + count) mod 2^32`. -/
theorem get_is_peek_then_advance (f : kfifo) (dst : List byte) (len : Nat) :
    (∀ r, kfifo_peek f dst len = some r → r.1 = f)
      ∧ kfifo_get f dst len
        = (kfifo_peek f dst len).map fun r =>
            ({ f with out := (f.out + r.2.2) % 4294967296 }, r.2.1, r.2.2) := by
  constructor
  · intro r hr
    unfold kfifo_peek at hr
    simp only [] at hr
    split at hr
    · exact absurd hr (by simp)
    · split at hr
      · exact absurd hr (by simp)
      · simp only [Option.some.injEq] at hr
        rw [← hr]
  · unfold kfifo_get kfifo_peek
    simp only []
    split
    · rename_i h
      split at h
      · simp
      · split at h
        · simp
        · simp at h
    · rename_i f1 d n h
      split at h
      · simp at h
      · split at h
        · simp at h
        · simp only [Option.some.injEq, Prod.mk.injEq] at h
          obtain ⟨h1, h2, h3⟩ := h
          subst h1 h2 h3
          simp [add32]

/-- Loading the same `n` bytes a second time into the destination of the first load
changes nothing. -/
theorem peek_dest_twice {f : kfifo} (hv : Valid f) {dst : List byte} {n : Nat}
    (hn : n ≤ kfifo_len f) (hd : n ≤ dst.length) :
    ringLoad (ringLoad dst f.buffer (f.out % (f.size + 1)) n) f.buffer
        (f.out % (f.size + 1)) n
      = ringLoad dst f.buffer (f.out % (f.size + 1)) n := by
  obtain ⟨h2, h31, _⟩ := hv.cap_bounds
  have hst := hv.storage
  have hh := hv.held
  have hl : (ringLoad dst f.buffer (f.out % (f.size + 1)) n).length = dst.length :=
    ringLoad_length (by rw [hst]; exact Nat.mod_lt _ (by omega)) (by omega) hd
  apply List.ext_getElem?
  intro i
  rw [peek_dest_getElem? hv hn (by omega)]
  by_cases hi : i < n
  · rw [if_pos hi, peek_dest_getElem? hv hn hd, if_pos hi]
  · rw [if_neg hi]

/-- C6. `kfifo_peek` is non-destructive and idempotent: on a valid fifo, with a
destination that has room for the `min(len, length)` bytes read, the call hands back the
fifo exactly as it was (storage, size, `in`, `out`, hence the same `kfifo_len`), and a
second call with the same arguments, on the destination as the first call left it,
returns the same count and leaves the same destination bytes. -/
theorem peek_nondestructive_idempotent (f : kfifo) (dst : List byte) (len : Nat)
    (hv : Valid f) (hd : min len (kfifo_len f) ≤ dst.length) :
    ∃ f1 d n, kfifo_peek f dst len = some (f1, d, n)
      ∧ f1 = f ∧ kfifo_len f1 = kfifo_len f
      ∧ kfifo_peek f1 d len = some (f1, d, n) := by
  obtain ⟨h2, h31, _⟩ := hv.cap_bounds
  have hst := hv.storage
  have hh := hv.held
  have hl : (ringLoad dst f.buffer (f.out % (f.size + 1)) (min len (kfifo_len f))).length
      = dst.length :=
    ringLoad_length (by rw [hst]; exact Nat.mod_lt _ (by omega)) (by omega) hd
  refine ⟨f, ringLoad dst f.buffer (f.out % (f.size + 1)) (min len (kfifo_len f)),
    min len (kfifo_len f), ?_, rfl, rfl, ?_⟩
  · rw [kfifo_peek_eq hv, if_pos hd]
  · rw [kfifo_peek_eq hv, if_pos (by omega), peek_dest_twice hv (Nat.min_le_right _ _) hd]

/-- C6, on a 128-byte fifo holding 50 bytes across the cursor overflow, peeked twice
with `len = 200` into `demo_b`. -/
theorem peek_nondestructive_idempotent_witness :
    Valid (demo_at 40 4294967286)
      ∧ min 200 (kfifo_len (demo_at 40 4294967286)) ≤ demo_b.length
      ∧ ∃ f1 d n, kfifo_peek (demo_at 40 4294967286) demo_b 200 = some (f1, d, n)
          ∧ f1 = demo_at 40 4294967286 ∧ kfifo_len f1 = kfifo_len (demo_at 40 4294967286)
          ∧ kfifo_peek f1 d 200 = some (f1, d, n) :=
  ⟨demo_at_valid 40 4294967286 (by decide) (by decide) (by decide),
    by rw [demo_b_length]; decide,
    peek_nondestructive_idempotent (demo_at 40 4294967286) demo_b 200
      (demo_at_valid 40 4294967286 (by decide) (by decide) (by decide))
      (by rw [demo_b_length]; decide)⟩

/-- C7. `kfifo_skip` discards exactly what `kfifo_get` would have consumed: on a valid
fifo it returns `n = min(len, length)` and changes only `out`, to
`(out + n) mod 2^32`; the fifo it leaves is the one `kfifo_get` leaves for the same
`len` and any destination with room for `n` bytes; the bytes still held are the
previous contents with the first `n` removed, in the same order. -/
theorem skip_discards_like_get (f : kfifo) (dst : List byte) (len : Nat)
    (hv : Valid f) (hd : min len (kfifo_len f) ≤ dst.length) :
    kfifo_skip f len
        = ({ f with out := (f.out + min len (kfifo_len f)) % 4294967296 },
            min len (kfifo_len f))
      ∧ (∃ d, kfifo_get f dst len = some ((kfifo_skip f len).1, d, (kfifo_skip f len).2))
      ∧ contents (kfifo_skip f len).1 = (contents f).drop (min len (kfifo_len f)) := by
  refine ⟨kfifo_skip_eq f len,
    ⟨ringLoad dst f.buffer (f.out % (f.size + 1)) (min len (kfifo_len f)), ?_⟩, ?_⟩
  · rw [kfifo_get_eq hv, if_pos hd, kfifo_skip_eq]
  · rw [kfifo_skip_eq]
    exact skip_contents hv (Nat.min_le_right _ _)

/-- C7, on a 128-byte fifo holding 50 bytes across the cursor overflow: a skip of 30
against a get of 30 into `demo_b`. -/
theorem skip_discards_like_get_witness :
    Valid (demo_at 40 4294967286)
      ∧ min 30 (kfifo_len (demo_at 40 4294967286)) ≤ demo_b.length
      ∧ (kfifo_skip (demo_at 40 4294967286) 30
          = ({ demo_at 40 4294967286 with
                out := ((demo_at 40 4294967286).out
                  + min 30 (kfifo_len (demo_at 40 4294967286))) % 4294967296 },
              min 30 (kfifo_len (demo_at 40 4294967286)))
        ∧ (∃ d, kfifo_get (demo_at 40 4294967286) demo_b 30
            = some ((kfifo_skip (demo_at 40 4294967286) 30).1, d,
                (kfifo_skip (demo_at 40 4294967286) 30).2))
        ∧ contents (kfifo_skip (demo_at 40 4294967286) 30).1
            = (contents (demo_at 40 4294967286)).drop
                (min 30 (kfifo_len (demo_at 40 4294967286)))) :=
  ⟨demo_at_valid 40 4294967286 (by decide) (by decide) (by decide),
    by rw [demo_b_length]; decide,
    skip_discards_like_get (demo_at 40 4294967286) demo_b 30
      (demo_at_valid 40 4294967286 (by decide) (by decide) (by decide))
      (by rw [demo_b_length]; decide)⟩

/-- A successful `kfifo_init` on a region of `size` bytes leaves a valid, empty fifo. -/
theorem init_valid {f0 : kfifo} {buf : List byte} {size : Nat} (hsize : size < 4294967296)
    (hbuf : buf.length = size) (hok : (kfifo_init f0 (some buf) size).2 = true) :
    kfifo_init f0 (some buf) size
        = ({ buffer := buf, size := size - 1, in_ := 0, out := 0 }, true)
      ∧ Valid { buffer := buf, size := size - 1, in_ := 0, out := 0 } := by
  unfold kfifo_init at hok ⊢
  simp only [] at hok ⊢
  by_cases hp : is_power_of_2 size = true
  · obtain ⟨k, hk1, hk31, hk⟩ := is_power_of_2_spec hsize hp
    have h2 := cap_ge hk1 hk
    have hs1 : sub32 size 1 = size - 1 := sub32_of_le (by omega) hsize
    simp only [hp, Bool.not_true, Bool.false_eq_true, if_false, hs1, true_and]
    refine ⟨?_, ?_, ⟨k, hk1, hk31, ?_⟩, ?_, ?_⟩
    · show (0 : Nat) < 4294967296
      decide
    · show (0 : Nat) < 4294967296
      decide
    · show size - 1 + 1 = 2 ^ k
      omega
    · show buf.length = size - 1 + 1
      omega
    · show sub32 0 0 ≤ size - 1 + 1
      unfold sub32; omega
  · simp [hp] at hok

theorem reset_valid {f : kfifo} (hv : Valid f) : Valid (__kfifo_reset f) := by
  refine ⟨by show (0 : Nat) < 4294967296; decide, by show (0 : Nat) < 4294967296; decide,
    hv.pow2, hv.storage, ?_⟩
  show sub32 0 0 ≤ f.size + 1
  unfold sub32; omega

theorem put_preserves {f : kfifo} (hv : Valid f) {src : List byte} {len : Nat}
    {r : kfifo × Nat} (h : kfifo_put f src len = some r) :
    Valid r.1 ∧ r.1.size = f.size ∧ r.1.buffer.length = f.buffer.length := by
  rw [kfifo_put_eq hv] at h
  split at h
  · rename_i hs
    simp only [Option.some.injEq] at h
    subst h
    have hv1 := put_valid hv (Nat.min_le_right len (f.size + 1 - kfifo_len f)) hs
    exact ⟨hv1, rfl, by rw [hv1.storage, hv.storage]⟩
  · exact absurd h (by simp)

theorem peek_preserves {f : kfifo} (hv : Valid f) {dst : List byte} {len : Nat}
    {r : kfifo × List byte × Nat} (h : kfifo_peek f dst len = some r) :
    Valid r.1 ∧ r.1.size = f.size ∧ r.1.buffer.length = f.buffer.length := by
  rw [kfifo_peek_eq hv] at h
  split at h
  · simp only [Option.some.injEq] at h
    subst h
    exact ⟨hv, rfl, rfl⟩
  · exact absurd h (by simp)

theorem get_preserves {f : kfifo} (hv : Valid f) {dst : List byte} {len : Nat}
    {r : kfifo × List byte × Nat} (h : kfifo_get f dst len = some r) :
    Valid r.1 ∧ r.1.size = f.size ∧ r.1.buffer.length = f.buffer.length := by
  rw [kfifo_get_eq hv] at h
  split at h
  · simp only [Option.some.injEq] at h
    subst h
    exact ⟨skip_valid hv (Nat.min_le_right _ _), rfl, rfl⟩
  · exact absurd h (by simp)

theorem skip_preserves {f : kfifo} (hv : Valid f) (len : Nat) :
    Valid (kfifo_skip f len).1 ∧ (kfifo_skip f len).1.size = f.size
      ∧ (kfifo_skip f len).1.buffer.length = f.buffer.length := by
  rw [kfifo_skip_eq]
  exact ⟨skip_valid hv (Nat.min_le_right _ _), rfl, rfl⟩

/-- C8. The cursor invariant is preserved by every operation.  A successful `kfifo_init`
on a region of `size` bytes yields a valid fifo; and from a valid fifo, `kfifo_put`,
`kfifo_get`, `kfifo_peek` (each defined as soon as the caller's region holds the bytes
moved), `kfifo_skip` and `__kfifo_reset` yield a valid fifo with the same size field and
the same storage length, for all arguments and all cursor values. -/
theorem valid_preserved :
    (∀ (f0 : kfifo) (buf : List byte) (size : Nat), size < 4294967296 → buf.length = size →
        (kfifo_init f0 (some buf) size).2 = true → Valid (kfifo_init f0 (some buf) size).1)
      ∧ ∀ f : kfifo, Valid f →
        (∀ (src : List byte) (len : Nat),
            (min len (f.size + 1 - kfifo_len f) ≤ src.length →
              ∃ r, kfifo_put f src len = some r)
            ∧ ∀ r, kfifo_put f src len = some r →
              Valid r.1 ∧ r.1.size = f.size ∧ r.1.buffer.length = f.buffer.length)
        ∧ (∀ (dst : List byte) (len : Nat),
            (min len (kfifo_len f) ≤ dst.length → ∃ r, kfifo_get f dst len = some r)
            ∧ ∀ r, kfifo_get f dst len = some r →
              Valid r.1 ∧ r.1.size = f.size ∧ r.1.buffer.length = f.buffer.length)
        ∧ (∀ (dst : List byte) (len : Nat),
            (min len (kfifo_len f) ≤ dst.length → ∃ r, kfifo_peek f dst len = some r)
            ∧ ∀ r, kfifo_peek f dst len = some r →
              Valid r.1 ∧ r.1.size = f.size ∧ r.1.buffer.length = f.buffer.length)
        ∧ (∀ len : Nat, Valid (kfifo_skip f len).1 ∧ (kfifo_skip f len).1.size = f.size
            ∧ (kfifo_skip f len).1.buffer.length = f.buffer.length)
        ∧ (Valid (__kfifo_reset f) ∧ (__kfifo_reset f).size = f.size
            ∧ (__kfifo_reset f).buffer.length = f.buffer.length) := by
  refine ⟨?_, ?_⟩
  · intro f0 buf size hsize hbuf hok
    obtain ⟨he, hval⟩ := init_valid hsize hbuf hok
    rw [he]
    exact hval
  · intro f hv
    refine ⟨?_, ?_, ?_, skip_preserves hv, reset_valid hv, rfl, rfl⟩
    · intro src len
      refine ⟨fun hs => ⟨_, by rw [kfifo_put_eq hv, if_pos hs]⟩, fun r h => put_preserves hv h⟩
    · intro dst len
      refine ⟨fun hs => ⟨_, by rw [kfifo_get_eq hv, if_pos hs]⟩, fun r h => get_preserves hv h⟩
    · intro dst len
      refine ⟨fun hs => ⟨_, by rw [kfifo_peek_eq hv, if_pos hs]⟩, fun r h => peek_preserves hv h⟩

/-- C8, at `kfifo_init` on 128 bytes and at a skip across the cursor overflow. -/
theorem valid_preserved_witness :
    Valid (kfifo_init (demo_q 0) (some (List.replicate 128 0)) 128).1
      ∧ Valid (kfifo_skip (demo_at 40 4294967286) 30).1 :=
  ⟨valid_preserved.1 (demo_q 0) (List.replicate 128 0) 128 (by decide) rfl rfl,
    ((valid_preserved.2 (demo_at 40 4294967286)
      (demo_at_valid 40 4294967286 (by decide) (by decide) (by decide))).2.2.2.1 30).1⟩

/-- One call on a valid fifo does to the held bytes what the queue does, hands back the
same reply, and leaves a valid fifo of the same size. -/
theorem exec_refines {f : kfifo} (hv : Valid f) (c : Call) :
    (c.exec f).map (fun p => (contents p.1, p.2)) = c.queue (f.size + 1) (contents f)
      ∧ ∀ p, c.exec f = some p → Valid p.1 ∧ p.1.size = f.size := by
  cases c with
  | put src len =>
    simp only [Call.exec, Call.queue]
    rw [kfifo_put_eq hv, contents_length]
    by_cases hs : min len (f.size + 1 - kfifo_len f) ≤ src.length
    · simp only [if_pos hs, Option.map_some']
      rw [put_contents hv (Nat.min_le_right _ _) hs]
      refine ⟨rfl, ?_⟩
      intro p hp
      simp only [Option.some.injEq] at hp
      subst hp
      exact ⟨put_valid hv (Nat.min_le_right _ _) hs, rfl⟩
    · simp only [if_neg hs, Option.map_none']
      refine ⟨trivial, ?_⟩
      intro p hp
      exact absurd hp (by simp)
  | get dst len =>
    simp only [Call.exec, Call.queue]
    rw [kfifo_get_eq hv, contents_length]
    by_cases hs : min len (kfifo_len f) ≤ dst.length
    · simp only [if_pos hs, Option.map_some']
      rw [skip_contents hv (Nat.min_le_right _ _), peek_dest hv (Nat.min_le_right _ _) hs]
      refine ⟨rfl, ?_⟩
      intro p hp
      simp only [Option.some.injEq] at hp
      subst hp
      exact ⟨skip_valid hv (Nat.min_le_right _ _), rfl⟩
    · simp only [if_neg hs, Option.map_none']
      refine ⟨trivial, ?_⟩
      intro p hp
      exact absurd hp (by simp)
  | peek dst len =>
    simp only [Call.exec, Call.queue]
    rw [kfifo_peek_eq hv, contents_length]
    by_cases hs : min len (kfifo_len f) ≤ dst.length
    · simp only [if_pos hs, Option.map_some']
      rw [peek_dest hv (Nat.min_le_right _ _) hs]
      refine ⟨rfl, ?_⟩
      intro p hp
      simp only [Option.some.injEq] at hp
      subst hp
      exact ⟨hv, rfl⟩
    · simp only [if_neg hs, Option.map_none']
      refine ⟨trivial, ?_⟩
      intro p hp
      exact absurd hp (by simp)
  | skip len =>
    simp only [Call.exec, Call.queue]
    rw [kfifo_skip_eq, contents_length]
    simp only [Option.map_some']
    rw [skip_contents hv (Nat.min_le_right _ _)]
    refine ⟨rfl, ?_⟩
    intro p hp
    simp only [Option.some.injEq] at hp
    subst hp
    exact ⟨skip_valid hv (Nat.min_le_right _ _), rfl⟩

/-- A sequence of calls on a valid fifo does to the held bytes what the queue does and
hands back the same replies. -/
theorem run_refines (cs : List Call) : ∀ {f : kfifo}, Valid f →
    (run f cs).map (fun p => (contents p.1, p.2)) = runQueue (f.size + 1) (contents f) cs
      ∧ ∀ p, run f cs = some p → Valid p.1 ∧ p.1.size = f.size := by
  induction cs with
  | nil =>
    intro f hv
    refine ⟨rfl, ?_⟩
    intro p hp
    simp only [run, Option.some.injEq] at hp
    subst hp
    exact ⟨hv, rfl⟩
  | cons c cs ih =>
    intro f hv
    obtain ⟨he, hp⟩ := exec_refines hv c
    unfold run runQueue
    rw [← he]
    cases hx : c.exec f with
    | none =>
      simp only [Option.map_none']
      exact ⟨trivial, fun p h => absurd h (by simp)⟩
    | some p1 =>
      obtain ⟨f1, r⟩ := p1
      obtain ⟨hv1, hs1⟩ := hp _ hx
      obtain ⟨hr, hq⟩ := ih hv1
      simp only [Option.map_some']
      rw [← hs1, ← hr]
      cases hy : run f1 cs with
      | none =>
        simp only [Option.map_none']
        exact ⟨trivial, fun p h => absurd h (by simp)⟩
      | some p2 =>
        obtain ⟨f2, rs⟩ := p2
        obtain ⟨hv2, hs2⟩ := hq _ hy
        simp only [Option.map_some']
        refine ⟨trivial, ?_⟩
        intro p h
        simp only [Option.some.injEq] at h
        subst h
        exact ⟨hv2, by rw [hs2, hs1]⟩

/-- One call on the queue: lengths add up, and the capacity bound is kept. -/
theorem queue_count {cap : Nat} {xs ys : List byte} {c : Call} {r : Reply}
    (h : c.queue cap xs = some (ys, r)) :
    ys.length + c.taken r = xs.length + c.added r ∧ (xs.length ≤ cap → ys.length ≤ cap) := by
  cases c with
  | put src len =>
    simp only [Call.queue] at h
    split at h
    · rename_i hs
      simp only [Option.some.injEq, Prod.mk.injEq] at h
      obtain ⟨h1, h2⟩ := h
      subst h1 h2
      simp only [Call.taken, Call.added, List.length_append, List.length_take]
      omega
    · exact absurd h (by simp)
  | get dst len =>
    simp only [Call.queue] at h
    split at h
    · simp only [Option.some.injEq, Prod.mk.injEq] at h
      obtain ⟨h1, h2⟩ := h
      subst h1 h2
      simp only [Call.taken, Call.added, List.length_drop]
      omega
    · exact absurd h (by simp)
  | peek dst len =>
    simp only [Call.queue] at h
    split at h
    · simp only [Option.some.injEq, Prod.mk.injEq] at h
      obtain ⟨h1, h2⟩ := h
      subst h1 h2
      exact ⟨by simp [Call.taken, Call.added], fun hc => hc⟩
    · exact absurd h (by simp)
  | skip len =>
    simp only [Call.queue, Option.some.injEq, Prod.mk.injEq] at h
    obtain ⟨h1, h2⟩ := h
    subst h1 h2
    simp only [Call.taken, Call.added, List.length_drop]
    omega

/-- A sequence of calls on the queue: lengths add up, and the capacity bound is kept. -/
theorem runQueue_count {cap : Nat} (cs : List Call) : ∀ {xs zs : List byte} {rs : List Reply},
    runQueue cap xs cs = some (zs, rs) →
    zs.length + consumed cs rs = xs.length + written cs rs
      ∧ (xs.length ≤ cap → zs.length ≤ cap) := by
  induction cs with
  | nil =>
    intro xs zs rs h
    simp only [runQueue, Option.some.injEq, Prod.mk.injEq] at h
    obtain ⟨h1, h2⟩ := h
    subst h1 h2
    simp [consumed, written]
  | cons c cs ih =>
    intro xs zs rs h
    unfold runQueue at h
    cases hx : c.queue cap xs with
    | none => rw [hx] at h; exact absurd h (by simp)
    | some p1 =>
      obtain ⟨ys, r⟩ := p1
      rw [hx] at h
      simp only [] at h
      cases hy : runQueue cap ys cs with
      | none => rw [hy] at h; exact absurd h (by simp)
      | some p2 =>
        obtain ⟨ws, rs1⟩ := p2
        rw [hy] at h
        simp only [Option.some.injEq, Prod.mk.injEq] at h
        obtain ⟨h1, h2⟩ := h
        subst h1 h2
        obtain ⟨a1, a2⟩ := queue_count hx
        obtain ⟨b1, b2⟩ := ih hy
        simp only [consumed, written]
        exact ⟨by omega, fun hc => b2 (a2 hc)⟩

/-- A call whose regions are as long as its `len` is defined on the queue. -/
theorem queue_defined (cap : Nat) (xs : List byte) {c : Call} (h : c.fits = true) :
    ∃ p, c.queue cap xs = some p := by
  cases c with
  | put src len =>
    simp only [Call.fits, decide_eq_true_eq] at h
    exact ⟨_, by simp only [Call.queue]; rw [if_pos (by omega)]⟩
  | get dst len =>
    simp only [Call.fits, decide_eq_true_eq] at h
    exact ⟨_, by simp only [Call.queue]; rw [if_pos (by omega)]⟩
  | peek dst len =>
    simp only [Call.fits, decide_eq_true_eq] at h
    exact ⟨_, by simp only [Call.queue]; rw [if_pos (by omega)]⟩
  | skip len => exact ⟨_, rfl⟩

theorem runQueue_defined (cap : Nat) (cs : List Call) : ∀ (xs : List byte),
    cs.all Call.fits = true → ∃ p, runQueue cap xs cs = some p := by
  induction cs with
  | nil => intro xs _; exact ⟨_, rfl⟩
  | cons c cs ih =>
    intro xs h
    simp only [List.all_cons, Bool.and_eq_true] at h
    obtain ⟨p1, h1⟩ := queue_defined cap xs h.1
    obtain ⟨ys, r⟩ := p1
    obtain ⟨p2, h2⟩ := ih ys h.2
    obtain ⟨zs, rs⟩ := p2
    exact ⟨(zs, r :: rs), by unfold runQueue; rw [h1]; simp only []; rw [h2]⟩

/-- A sequence of calls whose regions are as long as their `len` is defined on a valid
fifo. -/
theorem run_defined {f : kfifo} (hv : Valid f) {cs : List Call}
    (h : cs.all Call.fits = true) : ∃ p, run f cs = some p := by
  obtain ⟨q, hq⟩ := runQueue_defined (f.size + 1) cs (contents f) h
  have hr := (run_refines cs hv).1
  rw [hq] at hr
  cases hx : run f cs with
  | none => rw [hx] at hr; exact absurd hr (by simp)
  | some p => exact ⟨p, rfl⟩

/-- C9. Length accounting: starting from a valid fifo with `in = out = 0`, every
sequence of put, get, skip and peek calls whose regions are as long as their `len` runs
to completion, and whenever a sequence runs to completion `kfifo_len` of the final state
is the sum of the counts returned by the puts minus the sum of the counts returned by
the gets and skips, as natural numbers, and is at most the capacity. -/
theorem length_accounting (f : kfifo) (cs : List Call)
    (hv : Valid f) (hin : f.in_ = 0) (hout : f.out = 0) :
    (cs.all Call.fits = true → ∃ p, run f cs = some p)
      ∧ ∀ f1 rs, run f cs = some (f1, rs) →
          consumed cs rs ≤ written cs rs
            ∧ kfifo_len f1 = written cs rs - consumed cs rs
            ∧ f1.size = f.size
            ∧ kfifo_len f1 ≤ f.size + 1 := by
  refine ⟨fun h => run_defined hv h, ?_⟩
  intro f1 rs h
  obtain ⟨hr, hp⟩ := run_refines cs hv
  rw [h, contents_of_empty hv (by rw [hin, hout])] at hr
  have hq : runQueue (f.size + 1) [] cs = some (contents f1, rs) := hr.symm
  obtain ⟨a, b⟩ := runQueue_count cs hq
  rw [contents_length, List.length_nil] at a
  rw [contents_length, List.length_nil] at b
  exact ⟨by omega, by omega, (hp _ h).2, b (Nat.zero_le _)⟩

/-- C9, on the first two put/get pairs of the demonstration program, run on the fifo
that `kfifo_init` sets up on 128 bytes. -/
theorem length_accounting_witness :
    Valid (kfifo_init (demo_q 0) (some (List.replicate 128 0)) 128).1
      ∧ (kfifo_init (demo_q 0) (some (List.replicate 128 0)) 128).1.in_ = 0
      ∧ (kfifo_init (demo_q 0) (some (List.replicate 128 0)) 128).1.out = 0
      ∧ ∃ p, run (kfifo_init (demo_q 0) (some (List.replicate 128 0)) 128).1
          [Call.put demo_a 100, Call.get demo_b 200, Call.put demo_a 100,
            Call.get demo_b 200] = some p :=
  ⟨demo_q_valid 0 (by decide), rfl, rfl,
    (length_accounting (kfifo_init (demo_q 0) (some (List.replicate 128 0)) 128).1
      [Call.put demo_a 100, Call.get demo_b 200, Call.put demo_a 100, Call.get demo_b 200]
      (demo_q_valid 0 (by decide)) rfl rfl).1
      (by simp [Call.fits, demo_a_length, demo_b_length])⟩

/-- C10. Behaviour does not depend on the absolute cursor value: for two valid empty
fifos of the same capacity, one with both cursors at `0` and one with both cursors at
any 32-bit value, every sequence of put, get, peek and skip calls hands back the same
counts and the same destination bytes on both (and is undefined on both or on neither),
also when a cursor overflows during the run; and the sequence runs to completion when
the regions passed are as long as their `len`. -/
theorem cursor_value_irrelevant (f0 fk : kfifo) (cs : List Call)
    (h0 : Valid f0) (hk : Valid fk) (hcap : fk.size = f0.size)
    (hz : f0.in_ = 0 ∧ f0.out = 0) (he : fk.in_ = fk.out) :
    (run fk cs).map Prod.snd = (run f0 cs).map Prod.snd
      ∧ (cs.all Call.fits = true → ∃ p q, run fk cs = some p ∧ run f0 cs = some q) := by
  have r0 := (run_refines cs h0).1
  have rk := (run_refines cs hk).1
  rw [contents_of_empty h0 (by rw [hz.1, hz.2])] at r0
  rw [contents_of_empty hk he, hcap, ← r0] at rk
  constructor
  · have := congrArg (Option.map Prod.snd) rk
    simpa [Option.map_map, Function.comp_def] using this
  · intro hf
    obtain ⟨p, hp⟩ := run_defined hk hf
    obtain ⟨q, hq⟩ := run_defined h0 hf
    exact ⟨p, q, hp, hq⟩

/-- C10, on the third put/get pair of the demonstration program: 128 bytes of storage,
both cursors at `(unsigned)-10`, against both cursors at `0`. -/
theorem cursor_value_irrelevant_witness :
    Valid (demo_q 0) ∧ Valid (demo_q 4294967286)
      ∧ (demo_q 4294967286).size = (demo_q 0).size
      ∧ ((demo_q 0).in_ = 0 ∧ (demo_q 0).out = 0)
      ∧ (demo_q 4294967286).in_ = (demo_q 4294967286).out
      ∧ (run (demo_q 4294967286) [Call.put demo_a 100, Call.get demo_b 200]).map Prod.snd
          = (run (demo_q 0) [Call.put demo_a 100, Call.get demo_b 200]).map Prod.snd :=
  ⟨demo_q_valid 0 (by decide), demo_q_valid 4294967286 (by decide), rfl, ⟨rfl, rfl⟩, rfl,
    (cursor_value_irrelevant (demo_q 0) (demo_q 4294967286)
      [Call.put demo_a 100, Call.get demo_b 200]
      (demo_q_valid 0 (by decide)) (demo_q_valid 4294967286 (by decide)) rfl ⟨rfl, rfl⟩
      rfl).1⟩

/-! ## Construction: rounding up and attaching -/

/-- One smearing step `x | x >> w`: if the `w` bit positions from `h` downwards are set
and nothing above `h` is, then afterwards the `2 w` positions from `h` downwards are set
and still nothing above `h` is. -/
theorem smear_step {x h w : Nat} (hx : x < 2 ^ (h + 1))
    (hb : ∀ i, i ≤ h → h < i + w → x.testBit i = true) :
    (x ||| (x >>> w)) < 2 ^ (h + 1)
      ∧ ∀ i, i ≤ h → h < i + (w + w) → (x ||| (x >>> w)).testBit i = true := by
  constructor
  · apply Nat.or_lt_two_pow hx
    rw [Nat.shiftRight_eq_div_pow]
    exact Nat.lt_of_le_of_lt (Nat.div_le_self x (2 ^ w)) hx
  · intro i hi hw
    rw [Nat.testBit_or, Nat.testBit_shiftRight]
    by_cases h1 : h < i + w
    · rw [hb i hi h1]; rfl
    · rw [hb (w + i) (by omega) (by omega)]
      simp

/-- A number below `2 ^ (h + 1)` with all positions `0 .. h` set is `2 ^ (h + 1) - 1`. -/
theorem all_bits_set {r h : Nat} (hr : r < 2 ^ (h + 1))
    (hb : ∀ i, i ≤ h → r.testBit i = true) : r = 2 ^ (h + 1) - 1 := by
  apply Nat.eq_of_testBit_eq
  intro i
  rw [Nat.testBit_two_pow_sub_one]
  by_cases hi : i ≤ h
  · rw [hb i hi]
    simp; omega
  · have : r < 2 ^ i :=
      Nat.lt_of_lt_of_le hr (Nat.pow_le_pow_right (by norm_num) (by omega))
    rw [Nat.testBit_lt_two_pow this]
    simp; omega

/-- The top bit of a number between `2 ^ h` and `2 ^ (h + 1)`. -/
theorem top_bit {x h : Nat} (h1 : 2 ^ h ≤ x) (h2 : x < 2 ^ (h + 1)) :
    x.testBit h = true := by
  rw [Nat.testBit_to_div_mod]
  have hpos : 0 < 2 ^ h := Nat.pow_pos (by norm_num)
  have hd : x / 2 ^ h = 1 := by
    apply Nat.div_eq_of_lt_le
    · omega
    · rw [Nat.pow_succ] at h2; omega
  rw [hd]
  rfl

/-- The five smearing steps of `roundup_pow_of_two` fill every position below the top
bit of a 32-bit number. -/
theorem smear_all {x h : Nat} (h1 : 2 ^ h ≤ x) (h2 : x < 2 ^ (h + 1)) (h32 : h < 32) :
    ((((x ||| (x >>> 1)) ||| ((x ||| (x >>> 1)) >>> 2))
        ||| (((x ||| (x >>> 1)) ||| ((x ||| (x >>> 1)) >>> 2)) >>> 4))
      ||| ((((x ||| (x >>> 1)) ||| ((x ||| (x >>> 1)) >>> 2))
        ||| (((x ||| (x >>> 1)) ||| ((x ||| (x >>> 1)) >>> 2)) >>> 4)) >>> 8))
      ||| (((((x ||| (x >>> 1)) ||| ((x ||| (x >>> 1)) >>> 2))
        ||| (((x ||| (x >>> 1)) ||| ((x ||| (x >>> 1)) >>> 2)) >>> 4))
      ||| ((((x ||| (x >>> 1)) ||| ((x ||| (x >>> 1)) >>> 2))
        ||| (((x ||| (x >>> 1)) ||| ((x ||| (x >>> 1)) >>> 2)) >>> 4)) >>> 8)) >>> 16)
      = 2 ^ (h + 1) - 1 := by
  have s0 : ∀ i, i ≤ h → h < i + 1 → x.testBit i = true := by
    intro i hi hw
    have : i = h := by omega
    rw [this]; exact top_bit h1 h2
  obtain ⟨b1, s1⟩ := smear_step h2 s0
  obtain ⟨b2, s2⟩ := smear_step b1 s1
  obtain ⟨b3, s3⟩ := smear_step b2 s2
  obtain ⟨b4, s4⟩ := smear_step b3 s3
  obtain ⟨b5, s5⟩ := smear_step b4 s4
  exact all_bits_set b5 (fun i hi => s5 i hi (by omega))

/-- On `2 ≤ v ≤ 2^31`, `roundup_pow_of_two v` is the power of two `2 ^ k` with
`2 ^ (k - 1) < v ≤ 2 ^ k`. -/
theorem roundup_pow_of_two_spec {v : Nat} (h2 : 2 ≤ v) (h31 : v ≤ 2147483648) :
    ∃ k, 1 ≤ k ∧ k ≤ 31 ∧ roundup_pow_of_two v = 2 ^ k ∧ v ≤ 2 ^ k ∧ 2 ^ k < 2 * v := by
  have hx0 : v - 1 ≠ 0 := by omega
  have hlo : 2 ^ (v - 1).log2 ≤ v - 1 := Nat.log2_self_le hx0
  have hhi : v - 1 < 2 ^ ((v - 1).log2 + 1) := Nat.lt_log2_self
  have hk : (v - 1).log2 < 31 := by
    rw [Nat.log2_lt hx0]
    have e : (2 : Nat) ^ 31 = 2147483648 := by norm_num
    omega
  have hs : sub32 v 1 = v - 1 := sub32_of_le (by omega) (by omega)
  have hle : 2 ^ ((v - 1).log2 + 1) ≤ 2 ^ 31 := Nat.pow_le_pow_right (by norm_num) (by omega)
  have e31 : (2 : Nat) ^ 31 = 2147483648 := by norm_num
  have hpos : 0 < 2 ^ ((v - 1).log2 + 1) := Nat.pow_pos (by norm_num)
  refine ⟨(v - 1).log2 + 1, by omega, by omega, ?_, by omega, ?_⟩
  · unfold roundup_pow_of_two
    simp only [hs]
    rw [smear_all hlo hhi (by omega)]
    unfold add32
    omega
  · rw [Nat.pow_succ]; omega

/-- The power of two found by `roundup_pow_of_two_spec` is the least one. -/
theorem pow2_least {v k j : Nat} (hk : 2 ^ k < 2 * v) (hj : v ≤ 2 ^ j) : 2 ^ k ≤ 2 ^ j := by
  apply Nat.pow_le_pow_right (by norm_num)
  by_contra hc
  have : 2 ^ (j + 1) ≤ 2 ^ k := Nat.pow_le_pow_right (by norm_num) (by omega)
  rw [Nat.pow_succ] at this
  omega

/-- The test `is_power_of_2` accepts every power of two from `2` on. -/
theorem is_power_of_2_pow {k : Nat} (hk : 1 ≤ k) : is_power_of_2 (2 ^ k) = true := by
  have h2 := cap_ge hk (rfl : 2 ^ k = 2 ^ k)
  unfold is_power_of_2
  simp only [Bool.and_eq_true, decide_eq_true_eq, beq_iff_eq]
  refine ⟨by omega, ?_⟩
  rw [Nat.and_pow_two_sub_one_eq_mod, Nat.mod_self]

/-- The size `kfifo_alloc` passes to `malloc` and to `kfifo_init` for a request of at
most `2^31` bytes: the least power of two that is at least `max c 2`. -/
theorem alloc_size_spec {c : Nat} (hc : c ≤ 2147483648) :
    ∃ k, 1 ≤ k ∧ k ≤ 31
      ∧ (if !is_power_of_2 (if c < 2 then 2 else c)
          then roundup_pow_of_two (if c < 2 then 2 else c)
          else (if c < 2 then 2 else c)) = 2 ^ k
      ∧ max c 2 ≤ 2 ^ k ∧ ∀ j, max c 2 ≤ 2 ^ j → 2 ^ k ≤ 2 ^ j := by
  have hm : (if c < 2 then 2 else c) = max c 2 := by split <;> omega
  rw [hm]
  have h2 : 2 ≤ max c 2 := by omega
  have h31 : max c 2 ≤ 2147483648 := by omega
  generalize max c 2 = v at h2 h31
  by_cases hp : is_power_of_2 v = true
  · obtain ⟨k, hk1, hk31, hk⟩ := is_power_of_2_spec (by omega) hp
    refine ⟨k, hk1, hk31, ?_, by omega, ?_⟩
    · rw [hp]; simpa using hk
    · intro j hj; omega
  · obtain ⟨k, hk1, hk31, hr, hle, hlt⟩ := roundup_pow_of_two_spec h2 h31
    refine ⟨k, hk1, hk31, ?_, hle, fun j hj => pow2_least hlt hj⟩
    simp [hp, hr]

/-- For a request of at most `2^31` bytes, when both allocations succeed, `kfifo_alloc`
returns a valid empty fifo on the allocated region whose capacity is the least power of
two that is at least `max c 2`. -/
theorem kfifo_alloc_spec {malloc : Nat → Option (List byte)} {q0 : kfifo} {c : Nat}
    (hm : ∀ n b, malloc n = some b → b.length = n) (hc : c ≤ 2147483648)
    {f : kfifo} (h : kfifo_alloc malloc (some q0) c = some f) :
    ∃ k, 1 ≤ k ∧ k ≤ 31 ∧ f.size + 1 = 2 ^ k ∧ max c 2 ≤ 2 ^ k
      ∧ (∀ j, max c 2 ≤ 2 ^ j → 2 ^ k ≤ 2 ^ j)
      ∧ f.in_ = 0 ∧ f.out = 0 ∧ malloc (2 ^ k) = some f.buffer ∧ Valid f := by
  obtain ⟨k, hk1, hk31, hsz, hle, hleast⟩ := alloc_size_spec hc
  unfold kfifo_alloc at h
  simp only [hsz] at h
  cases hb : malloc (2 ^ k) with
  | none => rw [hb] at h; exact absurd h (by simp)
  | some b =>
    rw [hb] at h
    simp only [Option.some.injEq] at h
    have hlen := hm _ _ hb
    have hlt : 2 ^ k < 4294967296 := by
      have := cap_le hk31 (rfl : 2 ^ k = 2 ^ k); omega
    have hok : (kfifo_init q0 (some b) (2 ^ k)).2 = true := by
      unfold kfifo_init
      simp [is_power_of_2_pow hk1]
    obtain ⟨he, hv⟩ := init_valid hlt hlen hok
    rw [he] at h
    subst h
    have h2 := cap_ge hk1 (rfl : 2 ^ k = 2 ^ k)
    exact ⟨k, hk1, hk31, by show 2 ^ k - 1 + 1 = 2 ^ k; omega, hle, hleast, rfl, rfl, hb, hv⟩

/-- Above `2^31` the increment at the end of `roundup_pow_of_two` wraps to `0`. -/
theorem roundup_pow_of_two_overflow {v : Nat} (hlo : 2147483648 < v) (hhi : v < 4294967296) :
    roundup_pow_of_two v = 0 := by
  have e31 : (2 : Nat) ^ 31 = 2147483648 := by norm_num
  have e32 : (2 : Nat) ^ (31 + 1) = 4294967296 := by norm_num
  have hs : sub32 v 1 = v - 1 := sub32_of_le (by omega) hhi
  unfold roundup_pow_of_two
  simp only [hs]
  rw [smear_all (show 2 ^ 31 ≤ v - 1 by omega) (show v - 1 < 2 ^ (31 + 1) by omega) (by omega),
    e32]
  rfl

/-- For a request above `2^31`, when both allocations succeed, `kfifo_alloc` returns the
struct exactly as `malloc` handed it out: `kfifo_init` is called with size `0`, refuses,
and its result is not looked at. -/
theorem kfifo_alloc_overflow {malloc : Nat → Option (List byte)} {q0 : kfifo} {c : Nat}
    {b : List byte} (hlo : 2147483648 < c) (hhi : c < 4294967296) (hb : malloc 0 = some b) :
    kfifo_alloc malloc (some q0) c = some q0 := by
  have hnp : is_power_of_2 c = false := by
    cases hp : is_power_of_2 c with
    | false => rfl
    | true =>
      obtain ⟨k, _, hk31, hk⟩ := is_power_of_2_spec hhi hp
      have := cap_le hk31 hk
      omega
  unfold kfifo_alloc
  have hc : (if c < 2 then 2 else c) = c := by rw [if_neg (by omega)]
  simp only [hc, hnp, roundup_pow_of_two_overflow hlo hhi, Bool.not_false, if_true, hb]
  rfl

/-- C11, at the request `2^31 + 1` with both allocations succeeding: the rounded size
wraps to `0`, `kfifo_init` refuses it, and `kfifo_alloc` returns the struct with the
field values it had when allocated (here 12345, 7, 99) instead of an initialised fifo
of capacity `2^32`. -/
theorem alloc_rounding_overflow :
    roundup_pow_of_two 2147483649 = 0
      ∧ (kfifo_init { buffer := [], size := 12345, in_ := 7, out := 99 } (some []) 0).2 = false
      ∧ kfifo_alloc (fun n => some (List.replicate n 0))
          (some { buffer := [], size := 12345, in_ := 7, out := 99 }) 2147483649
        = some { buffer := [], size := 12345, in_ := 7, out := 99 } := by
  refine ⟨by decide, by decide, by decide⟩

/-- The test `is_power_of_2` accepts exactly the powers of two from `2` on. -/
theorem is_power_of_2_iff (n : Nat) :
    is_power_of_2 n = true ↔ ∃ k, 1 ≤ k ∧ n = 2 ^ k := by
  constructor
  · intro h
    unfold is_power_of_2 at h
    simp only [Bool.and_eq_true, decide_eq_true_eq, beq_iff_eq] at h
    obtain ⟨hgt, hand⟩ := h
    obtain ⟨k, hk⟩ := pow2_of_and_pred n (by omega) hand
    refine ⟨k, ?_, hk⟩
    rcases Nat.eq_zero_or_pos k with h0 | h0
    · rw [h0] at hk; simp at hk; omega
    · exact h0
  · rintro ⟨k, hk1, rfl⟩
    exact is_power_of_2_pow hk1

/-- C12. Attach-mode construction: for every prior struct, buffer handle and 32-bit
`size`, `kfifo_init` returns true exactly when the buffer is non-null and `size` is a
power of two `2^k` with `k ≥ 1`; when it returns true the struct has the given buffer,
size field `size - 1` and `in = out = 0`; when it returns false the struct is
unchanged. -/
theorem init_succeeds_iff (f : kfifo) (buffer : Option (List byte)) (size : Nat)
    (hs : size < 4294967296) :
    ((kfifo_init f buffer size).2 = true ↔
        buffer ≠ none ∧ ∃ k, 1 ≤ k ∧ size = 2 ^ k)
      ∧ (∀ b, buffer = some b → (kfifo_init f buffer size).2 = true →
          (kfifo_init f buffer size).1 = { buffer := b, size := size - 1, in_ := 0, out := 0 })
      ∧ ((kfifo_init f buffer size).2 = false → (kfifo_init f buffer size).1 = f) := by
  cases buffer with
  | none =>
    refine ⟨?_, ?_, ?_⟩
    · simp [kfifo_init]
    · intro b hb; exact absurd hb (by simp)
    · intro _; rfl
  | some b =>
    by_cases hp : is_power_of_2 size = true
    · have hk := (is_power_of_2_iff size).1 hp
      obtain ⟨k, hk1, hk2⟩ := hk
      have h2 := cap_ge hk1 hk2
      have hs1 : sub32 size 1 = size - 1 := sub32_of_le (by omega) hs
      have he : kfifo_init f (some b) size
          = ({ buffer := b, size := size - 1, in_ := 0, out := 0 }, true) := by
        unfold kfifo_init
        simp [hp, hs1]
      rw [he]
      refine ⟨?_, ?_, ?_⟩
      · simp only [true_iff]
        exact ⟨by simp, k, hk1, hk2⟩
      · intro b1 hb1 _
        simp only [Option.some.injEq] at hb1
        rw [hb1]
      · intro h; exact absurd h (by simp)
    · have hpf : is_power_of_2 size = false := by
        cases h : is_power_of_2 size with
        | false => rfl
        | true => exact absurd h hp
      have he : kfifo_init f (some b) size = (f, false) := by
        unfold kfifo_init
        simp [hpf]
      rw [he]
      refine ⟨?_, ?_, ?_⟩
      · constructor
        · intro h; exact absurd h (by simp)
        · rintro ⟨_, hk⟩
          exact absurd ((is_power_of_2_iff size).2 hk) hp
      · intro b1 _ h; exact absurd h (by simp)
      · intro _; rfl

/-- C12, at a size that is not a power of two: `kfifo_init` on the 200-byte `demo_b`
with `size = 200`. -/
theorem init_succeeds_iff_witness :
    200 < 4294967296
      ∧ (((kfifo_init (demo_q 5) (some demo_b) 200).2 = true ↔
          some demo_b ≠ none ∧ ∃ k, 1 ≤ k ∧ 200 = 2 ^ k)
        ∧ (∀ b, some demo_b = some b → (kfifo_init (demo_q 5) (some demo_b) 200).2 = true →
            (kfifo_init (demo_q 5) (some demo_b) 200).1
              = { buffer := b, size := 200 - 1, in_ := 0, out := 0 })
        ∧ ((kfifo_init (demo_q 5) (some demo_b) 200).2 = false →
            (kfifo_init (demo_q 5) (some demo_b) 200).1 = demo_q 5)) :=
  ⟨by decide, init_succeeds_iff (demo_q 5) (some demo_b) 200 (by decide)⟩

theorem umin_zero_right (a : Nat) : umin a 0 = 0 := by
  unfold umin; split <;> omega

theorem umin_zero_left (a : Nat) : umin 0 a = 0 := by
  unfold umin; split <;> omega

theorem splice_nothing (d b : List byte) (i j : Nat) : splice d i b j 0 = d := by
  unfold splice
  simp

/-- On a fifo whose cursors are equal modulo `2^32`, a read copies nothing. -/
theorem peek_of_len_zero {f : kfifo} (dst : List byte) (len : Nat)
    (h0 : sub32 f.in_ f.out = 0) (hoff : f.out &&& f.size ≤ f.buffer.length) :
    kfifo_peek f dst len = some (f, dst, 0) := by
  unfold kfifo_peek
  simp only []
  rw [h0, umin_zero_right, umin_zero_left, memcpy_eq_some (by omega) (by omega),
    splice_nothing]
  simp only []
  rw [show sub32 0 0 = 0 from rfl, memcpy_eq_some (by omega) (by omega),
    splice_nothing]

/-- On a fifo whose cursors are equal modulo `2^32`, a consuming read copies nothing
and advances the read cursor by `0`. -/
theorem get_of_len_zero {f : kfifo} (dst : List byte) (len : Nat)
    (h0 : sub32 f.in_ f.out = 0) (hoff : f.out &&& f.size ≤ f.buffer.length) :
    kfifo_get f dst len = some ({ f with out := add32 f.out 0 }, dst, 0) := by
  unfold kfifo_get
  rw [peek_of_len_zero dst len h0 hoff]

/-- On a fifo whose cursors are equal modulo `2^32`, a skip advances the read cursor by
`0`. -/
theorem skip_of_len_zero {f : kfifo} (len : Nat) (h0 : sub32 f.in_ f.out = 0) :
    kfifo_skip f len = ({ f with out := add32 f.out 0 }, 0) := by
  unfold kfifo_skip
  simp only []
  rw [h0, umin_zero_right]

/-- C13. Reset empties the fifo without touching storage: for every fifo state, after
`__kfifo_reset` both cursors are `0`, `kfifo_len` is `0`, `kfifo_empty` is `1`, a
following `kfifo_get`, `kfifo_peek` or `kfifo_skip` with any arguments returns `0` and
changes neither the fifo nor the destination, and the storage bytes and the size field
are those from before the reset. -/
theorem reset_empties (f : kfifo) (dst : List byte) (len : Nat) :
    (__kfifo_reset f).in_ = 0 ∧ (__kfifo_reset f).out = 0
      ∧ kfifo_len (__kfifo_reset f) = 0 ∧ kfifo_empty (__kfifo_reset f) = 1
      ∧ kfifo_get (__kfifo_reset f) dst len = some (__kfifo_reset f, dst, 0)
      ∧ kfifo_peek (__kfifo_reset f) dst len = some (__kfifo_reset f, dst, 0)
      ∧ kfifo_skip (__kfifo_reset f) len = (__kfifo_reset f, 0)
      ∧ (__kfifo_reset f).buffer = f.buffer ∧ (__kfifo_reset f).size = f.size := by
  have hin : (__kfifo_reset f).in_ = 0 := rfl
  have hout : (__kfifo_reset f).out = 0 := rfl
  have hlen : sub32 (__kfifo_reset f).in_ (__kfifo_reset f).out = 0 := by
    rw [hin, hout]
    rfl
  have hoff : (__kfifo_reset f).out &&& (__kfifo_reset f).size
      ≤ (__kfifo_reset f).buffer.length := by
    rw [hout, Nat.zero_and]
    exact Nat.zero_le _
  have hadv : add32 (__kfifo_reset f).out 0 = 0 := by
    rw [hout]
    rfl
  have hget := get_of_len_zero dst len hlen hoff
  have hskip := skip_of_len_zero len hlen
  rw [hadv] at hget hskip
  have hempty : kfifo_empty (__kfifo_reset f) = 1 := by
    unfold kfifo_empty
    rw [hin, hout, if_pos rfl]
  exact ⟨hin, hout, hlen, hempty, hget, peek_of_len_zero dst len hlen hoff, hskip, rfl, rfl⟩

/-- On a valid fifo the cursors are equal exactly when their wrapping difference is `0`. -/
theorem Valid.len_zero_iff {f : kfifo} (hv : Valid f) : kfifo_len f = 0 ↔ f.in_ = f.out := by
  have hi := hv.in_lt
  have ho := hv.out_lt
  unfold kfifo_len sub32
  omega

/-- C14. Empty and full are never confused: on a valid fifo `kfifo_empty` is non-zero
exactly when `kfifo_len` is `0`; a fifo is full (`kfifo_len = capacity`) exactly when
every `kfifo_put` on it returns `0`; and a full fifo is reported non-empty, for every
capacity from `2` to `2^31` and every cursor value. -/
theorem empty_full_distinct (f : kfifo) (hv : Valid f) :
    (kfifo_empty f ≠ 0 ↔ kfifo_len f = 0)
      ∧ (kfifo_len f = f.size + 1 ↔
          ∀ (src : List byte) (len : Nat), ∃ f1, kfifo_put f src len = some (f1, 0))
      ∧ (kfifo_len f = f.size + 1 → kfifo_empty f = 0) := by
  obtain ⟨h2, h31, _⟩ := hv.cap_bounds
  have hh := hv.held
  have hz := hv.len_zero_iff
  refine ⟨?_, ?_, ?_⟩
  · rw [hz]
    unfold kfifo_empty
    split <;> simp_all
  · constructor
    · intro hfull src len
      have h0 : min len (f.size + 1 - kfifo_len f) = 0 := by omega
      rw [kfifo_put_eq hv, h0, if_pos (Nat.zero_le _)]
      exact ⟨_, rfl⟩
    · intro hall
      obtain ⟨f1, h1⟩ := hall [0] 1
      rw [kfifo_put_eq hv] at h1
      split at h1
      · simp only [Option.some.injEq, Prod.mk.injEq] at h1
        omega
      · exact absurd h1 (by simp)
  · intro hfull
    have hne : ¬ f.in_ = f.out := by
      rw [← hz]; omega
    unfold kfifo_empty
    rw [if_neg hne]

/-- C14, on a full fifo whose write cursor has overflowed: 128 bytes of storage,
`out = 2^32 - 10`, `in = 118`. -/
theorem empty_full_distinct_witness :
    Valid (demo_at 118 4294967286)
      ∧ kfifo_len (demo_at 118 4294967286) = 128
      ∧ kfifo_empty (demo_at 118 4294967286) = 0 :=
  ⟨demo_at_valid 118 4294967286 (by decide) (by decide) (by decide), by decide,
    (empty_full_distinct (demo_at 118 4294967286)
      (demo_at_valid 118 4294967286 (by decide) (by decide) (by decide))).2.2 (by decide)⟩

/-- C15. Writer/reader field separation, for every fifo state and all arguments:
`kfifo_put` leaves `out` and the size field as they were; `kfifo_get` and `kfifo_skip`
leave `in`, the size field and every storage byte as they were; `kfifo_peek` leaves the
whole fifo as it was. -/
theorem writer_reader_fields (f : kfifo) :
    (∀ (src : List byte) (len : Nat) (r : kfifo × Nat),
        kfifo_put f src len = some r → r.1.out = f.out ∧ r.1.size = f.size)
      ∧ (∀ (dst : List byte) (len : Nat) (r : kfifo × List byte × Nat),
        kfifo_get f dst len = some r →
          r.1.in_ = f.in_ ∧ r.1.size = f.size ∧ r.1.buffer = f.buffer)
      ∧ (∀ len : Nat, (kfifo_skip f len).1.in_ = f.in_ ∧ (kfifo_skip f len).1.size = f.size
          ∧ (kfifo_skip f len).1.buffer = f.buffer)
      ∧ (∀ (dst : List byte) (len : Nat) (r : kfifo × List byte × Nat),
        kfifo_peek f dst len = some r → r.1 = f) := by
  have hpeek : ∀ (dst : List byte) (len : Nat) (r : kfifo × List byte × Nat),
      kfifo_peek f dst len = some r → r.1 = f := by
    intro dst len r hr
    unfold kfifo_peek at hr
    simp only [] at hr
    split at hr
    · exact absurd hr (by simp)
    · split at hr
      · exact absurd hr (by simp)
      · simp only [Option.some.injEq] at hr
        rw [← hr]
  refine ⟨?_, ?_, ?_, hpeek⟩
  · intro src len r hr
    unfold kfifo_put at hr
    simp only [] at hr
    split at hr
    · exact absurd hr (by simp)
    · split at hr
      · exact absurd hr (by simp)
      · simp only [Option.some.injEq] at hr
        rw [← hr]
        exact ⟨rfl, rfl⟩
  · intro dst len r hr
    unfold kfifo_get at hr
    split at hr
    · exact absurd hr (by simp)
    · rename_i f1 d n hp
      have h1 := hpeek dst len _ hp
      simp only [Option.some.injEq] at hr
      simp only at h1
      rw [← hr, h1]
      exact ⟨rfl, rfl, rfl⟩
  · intro len
    exact ⟨rfl, rfl, rfl⟩

/-- C15, at the put of the demonstration program on cursors `(unsigned)-10`. -/
theorem writer_reader_fields_witness :
    ∃ r, kfifo_put (demo_q 4294967286) demo_a 100 = some r
      ∧ r.1.out = (demo_q 4294967286).out ∧ r.1.size = (demo_q 4294967286).size :=
  match h : kfifo_put (demo_q 4294967286) demo_a 100 with
  | some r => ⟨r, rfl, (writer_reader_fields (demo_q 4294967286)).1 demo_a 100 r h⟩
  | none => absurd h (by
      rw [kfifo_put_eq (demo_q_valid 4294967286 (by decide)),
        if_pos (by rw [demo_a_length]; exact Nat.min_le_left _ _)]
      simp)

/-- C17, evaluated: after a successful `kfifo_init` on an 8-byte buffer with `size = 8`
the size field is `7`, not `8`; the fifo that `kfifo_alloc` returns for a request of 100
has size field `127` on its 128 bytes of storage; and on the 8-byte fifo with `in = 7` a
put of one byte lands at storage offset `7 = in & size`, while offset
`in % size = 7 % 7 = 0` keeps its old byte. -/
theorem size_field_is_mask :
    kfifo_init (demo_q 5) (some [0, 0, 0, 0, 0, 0, 0, 0]) 8 = (demo_small 0 0, true)
      ∧ (demo_small 0 0).size = 7 ∧ (demo_small 0 0).buffer.length = 8
      ∧ kfifo_alloc (fun n => some (List.replicate n 0)) (some (demo_q 5)) 100
        = some { buffer := List.replicate 128 0, size := 127, in_ := 0, out := 0 }
      ∧ kfifo_put (demo_small 7 0) [5] 1
        = some ({ demo_small 8 0 with buffer := [0, 0, 0, 0, 0, 0, 0, 5] }, 1)
      ∧ (demo_small 7 0).in_ &&& (demo_small 7 0).size = 7
      ∧ (demo_small 7 0).in_ % (demo_small 7 0).size = 0 := by
  refine ⟨by decide, rfl, rfl, rfl, by decide, by decide, by decide⟩

/-- C18. The two copy segments stay inside the storage: on a valid fifo, with `n` the
clamped length of `kfifo_put` and `l` its first segment length, `l ≤ n` (so `n - l` does
not wrap), the first segment `[in & mask, (in & mask) + l)` ends at or before the
capacity, the second segment `[0, n - l)` is no longer than the capacity, and when the
second segment is non-empty the first ends exactly at the capacity; the same holds for
`kfifo_peek` with `out` in place of `in`; the storage has exactly `capacity` bytes, and
`kfifo_put`, `kfifo_peek` and `kfifo_get` are undefined only when the caller's region is
shorter than the clamped length. -/
theorem segments_in_storage (f : kfifo) (len n l m k : Nat) (hv : Valid f)
    (hn : n = umin len (add32 (sub32 (add32 f.size 1) f.in_) f.out))
    (hl : l = umin n (sub32 (add32 f.size 1) (f.in_ &&& f.size)))
    (hm : m = umin len (sub32 f.in_ f.out))
    (hk : k = umin m (sub32 (add32 f.size 1) (f.out &&& f.size))) :
    f.buffer.length = f.size + 1
      ∧ (l ≤ n ∧ sub32 n l = n - l ∧ (f.in_ &&& f.size) + l ≤ f.size + 1
          ∧ n - l ≤ f.size + 1 ∧ (0 < n - l → (f.in_ &&& f.size) + l = f.size + 1))
      ∧ (k ≤ m ∧ sub32 m k = m - k ∧ (f.out &&& f.size) + k ≤ f.size + 1
          ∧ m - k ≤ f.size + 1 ∧ (0 < m - k → (f.out &&& f.size) + k = f.size + 1))
      ∧ (∀ src : List byte, kfifo_put f src len = none ↔ src.length < n)
      ∧ (∀ dst : List byte, kfifo_peek f dst len = none ↔ dst.length < m)
      ∧ (∀ dst : List byte, kfifo_get f dst len = none ↔ dst.length < m) := by
  obtain ⟨h2, h31, _⟩ := hv.cap_bounds
  have hh := hv.held
  have hin : f.in_ % (f.size + 1) < f.size + 1 := Nat.mod_lt _ (by omega)
  have hout : f.out % (f.size + 1) < f.size + 1 := Nat.mod_lt _ (by omega)
  rw [umin_eq_min, hv.free_eq] at hn
  rw [umin_eq_min, hv.seg_eq] at hl
  rw [umin_eq_min, show sub32 f.in_ f.out = kfifo_len f from rfl] at hm
  rw [umin_eq_min, hv.seg_eq] at hk
  rw [hv.mask, hv.mask]
  have hnl : sub32 n l = n - l := sub32_of_le (by omega) (by omega)
  have hmk : sub32 m k = m - k := sub32_of_le (by omega) (by omega)
  refine ⟨hv.storage, ⟨by omega, hnl, by omega, by omega, by omega⟩,
    ⟨by omega, hmk, by omega, by omega, by omega⟩, ?_, ?_, ?_⟩
  · intro src
    rw [kfifo_put_eq hv, ← hn]
    by_cases hs : n ≤ src.length
    · rw [if_pos hs]; simp; omega
    · rw [if_neg hs]; simp; omega
  · intro dst
    rw [kfifo_peek_eq hv, ← hm]
    by_cases hs : m ≤ dst.length
    · rw [if_pos hs]; simp; omega
    · rw [if_neg hs]; simp; omega
  · intro dst
    rw [kfifo_get_eq hv, ← hm]
    by_cases hs : m ≤ dst.length
    · rw [if_pos hs]; simp; omega
    · rw [if_neg hs]; simp; omega

/-- C18, on 128 bytes of storage holding 100 bytes from offset 118 to offset 90
(`out = 2^32 - 10`, `in = 90`), with `len = 100`: the put is clamped to 28 bytes in one
segment, the read takes 100 bytes as 10 up to the physical end and 90 from the start. -/
theorem segments_in_storage_witness :
    Valid (demo_at 90 4294967286)
      ∧ (10 ≤ 100 ∧ sub32 100 10 = 100 - 10
          ∧ ((demo_at 90 4294967286).out &&& (demo_at 90 4294967286).size) + 10
              ≤ (demo_at 90 4294967286).size + 1
          ∧ 100 - 10 ≤ (demo_at 90 4294967286).size + 1
          ∧ (0 < 100 - 10 →
              ((demo_at 90 4294967286).out &&& (demo_at 90 4294967286).size) + 10
                = (demo_at 90 4294967286).size + 1)) :=
  ⟨demo_at_valid 90 4294967286 (by decide) (by decide) (by decide),
    (segments_in_storage (demo_at 90 4294967286) 100 28 28 100 10
      (demo_at_valid 90 4294967286 (by decide) (by decide) (by decide))
      (by decide) (by decide) (by decide) (by decide)).2.2.1⟩

/-- C19. Masking is the remainder, and it survives the 32-bit overflow of a cursor: for
a capacity `2^k` with `1 ≤ k ≤ 31` (accepted by `is_power_of_2`), every `x` and every
`d`, `x & (2^k - 1) = x mod 2^k` and
`((x + d) mod 2^32) & (2^k - 1) = ((x & (2^k - 1)) + d) mod 2^k`. -/
theorem mask_is_mod (k x d : Nat) (hk1 : 1 ≤ k) (hk : k ≤ 31) :
    is_power_of_2 (2 ^ k) = true
      ∧ x &&& (2 ^ k - 1) = x % 2 ^ k
      ∧ add32 x d &&& (2 ^ k - 1) = ((x &&& (2 ^ k - 1)) + d) % 2 ^ k := by
  refine ⟨is_power_of_2_pow hk1, Nat.and_pow_two_sub_one_eq_mod x k, ?_⟩
  rw [Nat.and_pow_two_sub_one_eq_mod, Nat.and_pow_two_sub_one_eq_mod]
  exact add32_mod_cap (cap_dvd hk rfl) x d

/-- C19, at capacity 128 with the cursor stepping from `2^32 - 1` to `0`. -/
theorem mask_is_mod_witness :
    1 ≤ 7 ∧ 7 ≤ 31
      ∧ (is_power_of_2 (2 ^ 7) = true
        ∧ 4294967295 &&& (2 ^ 7 - 1) = 4294967295 % 2 ^ 7
        ∧ add32 4294967295 1 &&& (2 ^ 7 - 1) = ((4294967295 &&& (2 ^ 7 - 1)) + 1) % 2 ^ 7) :=
  ⟨by decide, by decide, mask_is_mod 7 4294967295 1 (by decide) (by decide)⟩

end Kfifo
